import Mathlib

/-!
# Club leader database (`src/rewarddb/clubleaderdb.cpp`)

A shallow embedding of `CClubLeaderDB`: the pending-operation cache
(`std::map<std::string, std::string>`), the LevelDB handle `pdb`, and the
operations `Write`, `Delete`, `Commit`, `AddClubLeader`, `RemoveClubLeader`
and `GetAllClubLeaders`.

Modelling conventions.

* A `std::string` is a list of characters; a character stands for one byte and
  the order on characters is the order of their codes, which is how both
  `std::string::compare` and LevelDB's bytewise comparator order keys.
* An ordered container (`std::map`, the LevelDB key space) is an association
  list iterated from its head; the container operations keep it ascending by
  key.
* `int` is a 32-bit signed integer, embedded in `Int`; the bounds `INT_MIN`
  and `INT_MAX` appear where the code depends on them (parsing a stored
  height).
* LevelDB is reliable in the main model: `Put` and `Delete` return an ok
  status. The commit path is modelled a second time, in the namespace `Faulty`,
  over a handle whose calls may fail and which records the calls issued to it.
* Logging and the thread interruption point have no effect on the state.
-/

namespace CClubLeaderDB

/-- A `std::string`, as the list of its bytes. -/
abbrev Str := List Char

/-- An ordered string-to-string container, as the list of its entries in
iteration order. -/
abbrev Entries := List (Str × Str)

/-! ## Collaborators: string order, ordered containers, Boost -/

/-- Bytewise lexicographic "less than" of `std::string` (and of LevelDB keys):
the first differing byte decides, and a proper initial segment is smaller. -/
def strLt : Str → Str → Bool
  | [], [] => false
  | [], _ :: _ => true
  | _ :: _, [] => false
  | a :: as, b :: bs =>
    if a.toNat < b.toNat then true
    else if b.toNat < a.toNat then false
    else strLt as bs

/-- Whether an ordered container is ascending by key, with no key twice. -/
def KeysAscending (m : Entries) : Prop :=
  m.Pairwise (fun x y => strLt x.1 y.1 = true)

/-- What `cache.find(key) != cache.end()` evaluates to. -/
def mapFind (key : Str) (m : Entries) : Bool :=
  m.any (fun e => e.1 == key)

/-- The assignment `it->second = value` at the entry found for `key`. -/
def mapAssign (key value : Str) (m : Entries) : Entries :=
  m.map (fun e => if e.1 = key then (e.1, value) else e)

/-- Insertion of an entry at its place in key order (`std::map::insert` of a
key that is not in the container). -/
def mapInsert (key value : Str) : Entries → Entries
  | [] => [(key, value)]
  | e :: rest =>
    if strLt key e.1 then (key, value) :: e :: rest
    else e :: mapInsert key value rest

/-- The effect of `leveldb::DB::Delete` on the key space: the binding of `key`,
if any, is gone. -/
def leveldbDelete (key : Str) (m : Entries) : Entries :=
  m.filter (fun e => e.1 != key)

/-- The effect of `leveldb::DB::Put` on the key space: `key` is bound to
`value`, any earlier binding of `key` being replaced. -/
def leveldbPut (key value : Str) (m : Entries) : Entries :=
  mapInsert key value (leveldbDelete key m)

/-- The decimal digit character of `d < 10`. -/
def digitChar (d : Nat) : Char := Char.ofNat (48 + d)

/-- The decimal digits of `n`, most significant first; `fuel` bounds the
number of digits produced. -/
def decimalDigits : Nat → Nat → Str
  | 0, _ => []
  | fuel + 1, n =>
    if n < 10 then [digitChar n]
    else decimalDigits fuel (n / 10) ++ [digitChar (n % 10)]

/-- The decimal representation of a natural number (no leading zero, `"0"` for
zero). -/
def decimal (n : Nat) : Str := decimalDigits (n + 1) n

/-- The Boost call `lexical_cast<std::string>(height)` on an `int`: the decimal
digits, after a minus sign when negative. This conversion cannot fail. -/
def lexical_cast_string (height : Int) : Str :=
  if height < 0 then '-' :: decimal height.natAbs else decimal height.toNat

/-- Whether a byte is one of `'0'` .. `'9'`. -/
def isDigit (c : Char) : Bool := decide (48 ≤ c.toNat) && decide (c.toNat ≤ 57)

/-- The largest `int`. -/
def INT_MAX : Int := 2147483647

/-- The largest `unsigned int`. -/
def UINT_MAX : Nat := 4294967295

/-- The unsigned conversion inside Boost's `lexical_cast` (classic locale): a
non-empty run of decimal digits whose value fits in `unsigned int`; anything
else fails. -/
def lcast_ret_unsigned (s : Str) : Option Nat :=
  if s.isEmpty || !s.all isDigit then none
  else
    let value := s.foldl (fun acc c => acc * 10 + (c.toNat - 48)) 0
    if value ≤ UINT_MAX then some value else none

/-- The Boost call `lexical_cast<int>(valueStr)`: an optional sign, then the
unsigned conversion of all the rest, accepted when the signed value fits in
`int`. `none` stands for the `bad_lexical_cast` exception. -/
def lexical_cast_int (s : Str) : Option Int :=
  match s with
  | [] => none
  | c :: rest =>
    let has_minus := c == '-'
    let body := if has_minus || c == '+' then rest else s
    match lcast_ret_unsigned body with
    | none => none
    | some out_tmp =>
      if has_minus then
        if out_tmp ≤ 2147483648 then some (-(out_tmp : Int)) else none
      else
        if (out_tmp : Int) ≤ INT_MAX then some (out_tmp : Int) else none

/-- The Boost call `boost::split(result, key, boost::is_any_of(delims))` with
the default of not compressing adjacent delimiters: the input is cut at every
delimiter byte, so `n` delimiters give `n + 1` tokens. -/
def split (isDelim : Char → Bool) : Str → List Str
  | [] => [[]]
  | c :: cs =>
    if isDelim c then [] :: split isDelim cs
    else
      match split isDelim cs with
      | [] => [[c]]
      | t :: ts => (c :: t) :: ts

/-! ## The database object -/

/-- The state of a `CClubLeaderDB`: the pending cache and the LevelDB key
space behind `pdb`. -/
structure DB where
  cache : Entries
  pdb : Entries
  deriving DecidableEq

/-- The constant `ADD_OP`. -/
def ADD_OP : Str := ['A']

/-- The constant `REMOVE_OP`. -/
def REMOVE_OP : Str := ['R']

/-- The constant `DB_LEADER`. -/
def DB_LEADER : Str := ['L']

/-- The method `CClubLeaderDB::Write(address, height)`: a `Put` of
`DB_LEADER + address` with the height string; the status is ok. -/
def Write (pdb : Entries) (address height : Str) : Bool × Entries :=
  let statusOk := true
  let pdb1 := leveldbPut (DB_LEADER ++ address) height pdb
  if !statusOk then (false, pdb1) else (true, pdb1)

/-- The method `CClubLeaderDB::Delete(address)`: a `Delete` of
`DB_LEADER + address`; the status is ok. -/
def Delete (pdb : Entries) (address : Str) : Bool × Entries :=
  let statusOk := true
  let pdb1 := leveldbDelete (DB_LEADER ++ address) pdb
  if !statusOk then (false, pdb1) else (true, pdb1)

/-- The body of the `for` loop of `Commit` for one cache entry. -/
def commitEntry (pdb : Entries) (entry : Str × Str) : Entries :=
  let key := entry.1
  let splitedStr := split (fun c => c == '_') key
  match splitedStr with
  | [address, height] =>
    let op := entry.2
    if op = ADD_OP then (Write pdb address height).2
    else if op = REMOVE_OP then (Delete pdb address).2
    else pdb
  | _ => pdb

/-- The `for` loop of `Commit`, over the cache entries from `cache.begin()`. -/
def commitLoop : Entries → Entries → Entries
  | [], pdb => pdb
  | entry :: rest, pdb => commitLoop rest (commitEntry pdb entry)

/-- The method `CClubLeaderDB::Commit()`. -/
def Commit (db : DB) : Bool × DB :=
  if db.cache.length = 0 then (true, db)
  else (true, { cache := [], pdb := commitLoop db.cache db.pdb })

/-- The tail shared by `AddClubLeader` and `RemoveClubLeader`: build the key
`address + "_" + strHeight`, then assign the op at the entry found for it or
insert a new entry. -/
def recordOp (db : DB) (address : Str) (height : Int) (op : Str) : Bool × DB :=
  if height < 0 then (false, db)
  else
    let strHeight := lexical_cast_string height
    let key := address ++ ['_'] ++ strHeight
    if mapFind key db.cache then
      (true, { db with cache := mapAssign key op db.cache })
    else
      (true, { db with cache := mapInsert key op db.cache })

/-- The method `CClubLeaderDB::AddClubLeader(address, height)`. -/
def AddClubLeader (db : DB) (address : Str) (height : Int) : Bool × DB :=
  recordOp db address height ADD_OP

/-- The method `CClubLeaderDB::RemoveClubLeader(address, height)`. -/
def RemoveClubLeader (db : DB) (address : Str) (height : Int) : Bool × DB :=
  recordOp db address height REMOVE_OP

/-- The `while (pcursor->Valid())` loop of `GetAllClubLeaders`, from the
cursor position `entries` with the output vector `leaders` so far. A failed
`lexical_cast<int>` is the `catch` branch: the loop is left with `false` and
the vector as it stands. -/
def scanLeaders (height : Int) : Entries → List Str → Bool × List Str
  | [], leaders => (true, leaders)
  | (keyStr, valueStr) :: rest, leaders =>
    if keyStr.length > 2 ∧ keyStr.head? = some 'L' then
      let address := keyStr.drop 1
      match lexical_cast_int valueStr with
      | none => (false, leaders)
      | some h =>
        if h ≤ height then scanLeaders height rest (leaders ++ [address])
        else scanLeaders height rest leaders
    else scanLeaders height rest leaders

/-- The method `CClubLeaderDB::GetAllClubLeaders(leaders, height)`: the
returned flag, the output vector at return (the caller's vector when the
height is negative), and the state. -/
def GetAllClubLeaders (db : DB) (leaders : List Str) (height : Int) :
    (Bool × List Str) × DB :=
  if height < 0 then ((false, leaders), db)
  else (scanLeaders height db.pdb [], db)

/-! ## Vocabulary of the statements -/

/-- The test `keyStr.length() > 2 && keyStr[0] == 'L'` of the scan. -/
abbrev LeaderKey (keyStr : Str) : Prop :=
  keyStr.length > 2 ∧ keyStr.head? = some 'L'

/-- What one record contributes to the result of a scan that reaches it and
can decode it: its address, when it is a leader record whose height is at most
`height`. -/
def selectLeader (height : Int) (e : Str × Str) : Option Str :=
  if LeaderKey e.1 then
    match lexical_cast_int e.2 with
    | none => none
    | some h => if h ≤ height then some (e.1.drop 1) else none
  else none

/-- One recording call: `AddClubLeader(address, height)` or
`RemoveClubLeader(address, height)`. -/
inductive RecordCall where
  | add (address : Str) (height : Int)
  | remove (address : Str) (height : Int)
  deriving DecidableEq

/-- The state after a sequence of recording calls, issued in order with no
`Commit` between them. -/
def runCalls : DB → List RecordCall → DB
  | db, [] => db
  | db, RecordCall.add address height :: rest =>
    runCalls (AddClubLeader db address height).2 rest
  | db, RecordCall.remove address height :: rest =>
    runCalls (RemoveClubLeader db address height).2 rest

/-- The test `splitedStr.size() != 2` of `Commit`, negated: whether a pending
key splits on `'_'` into exactly two parts. -/
def wellFormedKey (key : Str) : Bool :=
  decide ((split (fun c => c == '_') key).length = 2)

/-- The reference form of the query, in the words of its description: the keys
longer than two bytes that start with `'L'` and whose value parses to at most
`height`, in key-space order, each without its first byte. -/
def referenceLeaders (height : Int) (pdb : Entries) : List Str :=
  (pdb.filter (fun e =>
      decide (e.1.length > 2) && decide (e.1.head? = some 'L') &&
        (match lexical_cast_int e.2 with
          | some h => decide (h ≤ height)
          | none => false))).map (fun e => e.1.drop 1)

/-! ## The commit path on a LevelDB handle whose calls may fail -/

/-- A call issued to the LevelDB handle. -/
inductive StoreCall where
  | put (key value : Str)
  | delete (key : Str)
  deriving DecidableEq

/-- The status of a LevelDB call, as far as the code inspects it. -/
inductive Status where
  | ok
  | notFound
  | ioError
  deriving DecidableEq

/-- A LevelDB handle whose calls may fail: its key space, and the calls issued
to it so far, oldest first. -/
structure FaultyStore where
  entries : Entries
  issued : List StoreCall
  deriving DecidableEq

/-- The state of a `CClubLeaderDB` over such a handle. -/
structure FaultyDB where
  cache : Entries
  pdb : FaultyStore
  deriving DecidableEq

/-- The call that the loop body of `Commit` issues for one cache entry, if
any. -/
def storeCallOf (entry : Str × Str) : Option StoreCall :=
  match split (fun c => c == '_') entry.1 with
  | [address, height] =>
    if entry.2 = ADD_OP then some (StoreCall.put (DB_LEADER ++ address) height)
    else if entry.2 = REMOVE_OP then some (StoreCall.delete (DB_LEADER ++ address))
    else none
  | _ => none

/-- Modelled from the spec: `dbwrapper_private::HandleError`, which is called by
`Write` and `Delete` on a failed status and is not among the sources. The spec
has a failed Put or Delete logged without aborting the rest of the batch, so
the call returns to its caller, `some ()`; `none` would be an exception that
leaves the caller. -/
def HandleError (_status : Status) : Option Unit := some ()

namespace Faulty

/-- The call `pdb->Put(..)` on a handle whose calls may fail: the call is
issued; `outcome i` is the status of the call number `i`, and the key space
changes only when it is ok. -/
def leveldbPut (outcome : Nat → Status) (s : FaultyStore) (key value : Str) :
    Status × FaultyStore :=
  let status := outcome s.issued.length
  let issued := s.issued ++ [StoreCall.put key value]
  if status = Status.ok then
    (status, { entries := CClubLeaderDB.leveldbPut key value s.entries, issued := issued })
  else (status, { entries := s.entries, issued := issued })

/-- The call `pdb->Delete(..)` on a handle whose calls may fail. -/
def leveldbDelete (outcome : Nat → Status) (s : FaultyStore) (key : Str) :
    Status × FaultyStore :=
  let status := outcome s.issued.length
  let issued := s.issued ++ [StoreCall.delete key]
  if status = Status.ok then
    (status, { entries := CClubLeaderDB.leveldbDelete key s.entries, issued := issued })
  else (status, { entries := s.entries, issued := issued })

/-- The method `CClubLeaderDB::Write(address, height)`; `none` is an exception
out of `HandleError`. -/
def Write (outcome : Nat → Status) (pdb : FaultyStore) (address height : Str) :
    Option (Bool × FaultyStore) :=
  let r := leveldbPut outcome pdb (DB_LEADER ++ address) height
  if r.1 ≠ Status.ok then
    match HandleError r.1 with
    | none => none
    | some _ => some (false, r.2)
  else some (true, r.2)

/-- The method `CClubLeaderDB::Delete(address)`; `none` is an exception out of
`HandleError`. -/
def Delete (outcome : Nat → Status) (pdb : FaultyStore) (address : Str) :
    Option (Bool × FaultyStore) :=
  let r := leveldbDelete outcome pdb (DB_LEADER ++ address)
  if r.1 ≠ Status.ok ∧ r.1 ≠ Status.notFound then
    match HandleError r.1 with
    | none => none
    | some _ => some (false, r.2)
  else some (true, r.2)

/-- The body of the `for` loop of `Commit` for one cache entry; the value
returned by `Write` or `Delete` is not looked at. -/
def commitEntry (outcome : Nat → Status) (pdb : FaultyStore) (entry : Str × Str) :
    Option FaultyStore :=
  let key := entry.1
  let splitedStr := split (fun c => c == '_') key
  match splitedStr with
  | [address, height] =>
    let op := entry.2
    if op = ADD_OP then (Write outcome pdb address height).map (fun r => r.2)
    else if op = REMOVE_OP then (Delete outcome pdb address).map (fun r => r.2)
    else some pdb
  | _ => some pdb

/-- The `for` loop of `Commit`; an exception out of the body leaves the loop. -/
def commitLoop (outcome : Nat → Status) : Entries → FaultyStore → Option FaultyStore
  | [], pdb => some pdb
  | entry :: rest, pdb =>
    match commitEntry outcome pdb entry with
    | none => none
    | some pdb1 => commitLoop outcome rest pdb1

/-- The method `CClubLeaderDB::Commit()`. -/
def Commit (outcome : Nat → Status) (db : FaultyDB) : Option (Bool × FaultyDB) :=
  if db.cache.length = 0 then some (true, db)
  else
    match commitLoop outcome db.cache db.pdb with
    | none => none
    | some pdb1 => some (true, { cache := [], pdb := pdb1 })

end Faulty

/-! ## Decimal printing and parsing -/

theorem digitChar_toNat (d : Nat) (hd : d < 10) : (digitChar d).toNat = 48 + d := by
  interval_cases d <;> rfl

theorem isDigit_digitChar (d : Nat) (hd : d < 10) : isDigit (digitChar d) = true := by
  interval_cases d <;> rfl

theorem decimalDigits_isDigit (fuel n : Nat) :
    ∀ c ∈ decimalDigits fuel n, isDigit c = true := by
  induction fuel generalizing n with
  | zero => intro c hc; simp [decimalDigits] at hc
  | succ fuel ih =>
    intro c hc
    unfold decimalDigits at hc
    split at hc
    · rename_i hlt
      simp only [List.mem_singleton] at hc
      subst hc
      exact isDigit_digitChar n hlt
    · rcases List.mem_append.1 hc with h | h
      · exact ih _ c h
      · simp only [List.mem_singleton] at h
        subst h
        exact isDigit_digitChar _ (Nat.mod_lt _ (by decide))

theorem decimalDigits_ne_nil (fuel n : Nat) : decimalDigits (fuel + 1) n ≠ [] := by
  unfold decimalDigits
  split <;> simp

theorem decimalDigits_value (fuel n : Nat) (h : n < fuel) :
    (decimalDigits fuel n).foldl (fun acc c => acc * 10 + (c.toNat - 48)) 0 = n := by
  induction fuel generalizing n with
  | zero => omega
  | succ fuel ih =>
    unfold decimalDigits
    split
    · rename_i hlt
      simp [digitChar_toNat n hlt]
    · rw [List.foldl_append, ih (n / 10) (by omega)]
      simp [digitChar_toNat (n % 10) (Nat.mod_lt _ (by decide))]
      omega

theorem decimal_isDigit (n : Nat) : ∀ c ∈ decimal n, isDigit c = true :=
  decimalDigits_isDigit _ _

theorem decimal_ne_nil (n : Nat) : decimal n ≠ [] :=
  decimalDigits_ne_nil _ _

theorem decimal_value (n : Nat) :
    (decimal n).foldl (fun acc c => acc * 10 + (c.toNat - 48)) 0 = n :=
  decimalDigits_value _ _ (Nat.lt_succ_self n)

theorem lcast_ret_unsigned_decimal (n : Nat) :
    lcast_ret_unsigned (decimal n) = if n ≤ UINT_MAX then some n else none := by
  unfold lcast_ret_unsigned
  have h1 : (decimal n).isEmpty = false := by
    cases h : decimal n with
    | nil => exact absurd h (decimal_ne_nil n)
    | cons _ _ => rfl
  have h2 : (decimal n).all isDigit = true := List.all_eq_true.2 (decimal_isDigit n)
  simp [h1, h2, decimal_value]

theorem isDigit_ne_sign (c : Char) (h : isDigit c = true) :
    c ≠ '-' ∧ c ≠ '+' ∧ c ≠ '_' := by
  refine ⟨?_, ?_, ?_⟩ <;> rintro rfl <;> revert h <;> decide

/-- Parsing the decimal form of `n` gives back `n` when it fits in `int`, and
fails otherwise. -/
theorem lexical_cast_int_decimal (n : Nat) :
    lexical_cast_int (decimal n) = if n ≤ 2147483647 then some (n : Int) else none := by
  cases hs : decimal n with
  | nil => exact absurd hs (decimal_ne_nil n)
  | cons c rest =>
    have hc : isDigit c = true := decimal_isDigit n c (by rw [hs]; exact List.mem_cons_self _ _)
    obtain ⟨hm, hp, -⟩ := isDigit_ne_sign c hc
    have hu := lcast_ret_unsigned_decimal n
    rw [hs] at hu
    simp only [UINT_MAX] at hu
    by_cases h : n ≤ 2147483647
    · have h4 : n ≤ 4294967295 := by omega
      have h5 : (n : Int) ≤ 2147483647 := by omega
      simp [lexical_cast_int, INT_MAX, hm, hp, hu, h, h4, h5]
    · by_cases h4 : n ≤ 4294967295
      · have h5 : ¬ (n : Int) ≤ 2147483647 := by omega
        simp [lexical_cast_int, INT_MAX, hm, hp, hu, h, h4, h5]
      · simp [lexical_cast_int, INT_MAX, hm, hp, hu, h, h4]

theorem lexical_cast_string_nonneg (h : Int) (h0 : 0 ≤ h) :
    lexical_cast_string h = decimal h.toNat := by
  simp [lexical_cast_string, not_lt.2 h0]

theorem lexical_cast_string_no_delim (h : Int) (h0 : 0 ≤ h) :
    ∀ c ∈ lexical_cast_string h, c ≠ '_' := by
  intro c hc
  rw [lexical_cast_string_nonneg h h0] at hc
  exact (isDigit_ne_sign c (decimal_isDigit _ c hc)).2.2

/-- Round trip of a height through its stored form, within `int`. -/
theorem lexical_cast_int_string (h : Int) (h0 : 0 ≤ h) (h1 : h ≤ INT_MAX) :
    lexical_cast_int (lexical_cast_string h) = some h := by
  rw [lexical_cast_string_nonneg h h0, lexical_cast_int_decimal]
  have : h.toNat ≤ 2147483647 := by unfold INT_MAX at h1; omega
  simp [this, Int.toNat_of_nonneg h0]

/-- Whatever a stored height string of a non-negative height parses to, it is
that height. -/
theorem lexical_cast_int_string_some (h x : Int) (h0 : 0 ≤ h)
    (hx : lexical_cast_int (lexical_cast_string h) = some x) : x = h := by
  rw [lexical_cast_string_nonneg h h0, lexical_cast_int_decimal] at hx
  split at hx
  · simp only [Option.some.injEq] at hx
    rw [← hx, Int.toNat_of_nonneg h0]
  · cases hx

/-! ## Splitting a pending key -/

theorem split_ne_nil (p : Char → Bool) (s : Str) : split p s ≠ [] := by
  cases s with
  | nil => simp [split]
  | cons c cs =>
    unfold split
    split
    · simp
    · split <;> simp

theorem split_no_delim (p : Char → Bool) (s : Str) (h : ∀ c ∈ s, p c = false) :
    split p s = [s] := by
  induction s with
  | nil => rfl
  | cons c cs ih =>
    have hc : p c = false := h c (List.mem_cons_self _ _)
    have ih1 := ih (fun x hx => h x (List.mem_cons_of_mem _ hx))
    simp [split, hc, ih1]

theorem split_append_delim (p : Char → Bool) (a d : Str) (u : Char)
    (ha : ∀ c ∈ a, p c = false) (hu : p u = true) :
    split p (a ++ u :: d) = a :: split p d := by
  induction a with
  | nil => simp [split, hu]
  | cons c cs ih =>
    have hc : p c = false := ha c (List.mem_cons_self _ _)
    have ih1 := ih (fun x hx => ha x (List.mem_cons_of_mem _ hx))
    simp [split, hc, ih1]

/-- The number of tokens is one more than the number of delimiter bytes. -/
theorem split_length (p : Char → Bool) (s : Str) :
    (split p s).length = s.countP p + 1 := by
  induction s with
  | nil => rfl
  | cons c cs ih =>
    by_cases hc : p c = true
    · simp [split, hc, ih]
    · have hc1 : p c = false := by simpa using hc
      cases hsp : split p cs with
      | nil => exact absurd hsp (split_ne_nil p cs)
      | cons t ts =>
        rw [hsp] at ih
        simp [split, hc1, hsp, List.countP_cons] at ih ⊢
        exact ih

/-- A pending key built from an address without `'_'` and a non-negative
height splits back into that address and the height string. -/
theorem split_pending_key (a : Str) (h : Int) (ha : ∀ c ∈ a, c ≠ '_') (h0 : 0 ≤ h) :
    split (fun c => c == '_') (a ++ ['_'] ++ lexical_cast_string h)
      = [a, lexical_cast_string h] := by
  rw [List.append_assoc, List.singleton_append,
    split_append_delim _ a _ '_' (by simpa using ha) (by simp),
    split_no_delim _ _ (by simpa using lexical_cast_string_no_delim h h0)]

/-! ## Ordered containers -/

theorem mem_mapInsert (k v : Str) (m : Entries) (e : Str × Str) :
    e ∈ mapInsert k v m ↔ e = (k, v) ∨ e ∈ m := by
  induction m with
  | nil => simp [mapInsert]
  | cons x rest ih =>
    unfold mapInsert
    split
    · simp
    · simp only [List.mem_cons, ih]
      tauto

theorem mem_leveldbDelete (k : Str) (m : Entries) (e : Str × Str) :
    e ∈ leveldbDelete k m ↔ e ∈ m ∧ e.1 ≠ k := by
  simp [leveldbDelete]

theorem mem_leveldbPut (k v : Str) (m : Entries) (e : Str × Str) :
    e ∈ leveldbPut k v m ↔ e = (k, v) ∨ (e ∈ m ∧ e.1 ≠ k) := by
  simp [leveldbPut, mem_mapInsert, mem_leveldbDelete]

theorem leveldbDelete_mapInsert (k v : Str) (m : Entries) :
    leveldbDelete k (mapInsert k v m) = leveldbDelete k m := by
  induction m with
  | nil => simp [mapInsert, leveldbDelete]
  | cons x rest ih =>
    unfold mapInsert
    split
    · simp [leveldbDelete]
    · simp only [leveldbDelete, List.filter_cons] at ih ⊢
      rw [ih]

theorem leveldbDelete_idem (k : Str) (m : Entries) :
    leveldbDelete k (leveldbDelete k m) = leveldbDelete k m := by
  simp [leveldbDelete, List.filter_filter]

/-- A second `Put` under the same key replaces the first. -/
theorem leveldbPut_leveldbPut (k v w : Str) (m : Entries) :
    leveldbPut k w (leveldbPut k v m) = leveldbPut k w m := by
  simp [leveldbPut, leveldbDelete_mapInsert, leveldbDelete_idem]

/-- A `Delete` after a `Put` under the same key leaves what a `Delete` alone
leaves. -/
theorem leveldbDelete_leveldbPut (k v : Str) (m : Entries) :
    leveldbDelete k (leveldbPut k v m) = leveldbDelete k m := by
  simp [leveldbPut, leveldbDelete_mapInsert, leveldbDelete_idem]

theorem filter_key_mapInsert (k v : Str) (m : Entries) (h : ∀ e ∈ m, e.1 ≠ k) :
    (mapInsert k v m).filter (fun e => e.1 == k) = [(k, v)] := by
  induction m with
  | nil => simp [mapInsert]
  | cons x rest ih =>
    have hx : x.1 ≠ k := h x (List.mem_cons_self _ _)
    have hrest : rest.filter (fun e => e.1 == k) = [] := by
      simp only [List.filter_eq_nil_iff, beq_iff_eq]
      exact fun e he => h e (List.mem_cons_of_mem _ he)
    have ih1 := ih (fun e he => h e (List.mem_cons_of_mem _ he))
    unfold mapInsert
    split
    · simp [List.filter_cons, hx, hrest]
    · simp [List.filter_cons, hx, ih1]

/-- After a `Put`, the key space holds exactly one record under the key. -/
theorem filter_key_leveldbPut (k v : Str) (m : Entries) :
    (leveldbPut k v m).filter (fun e => e.1 == k) = [(k, v)] :=
  filter_key_mapInsert k v _ (fun e he => ((mem_leveldbDelete k m e).1 he).2)

/-! ### The containers stay ascending -/

theorem char_eq_of_toNat_eq (a b : Char) (h : a.toNat = b.toNat) : a = b := by
  apply Char.ext
  apply UInt32.ext
  exact h

theorem strLt_trans (x y z : Str) (hxy : strLt x y = true) (hyz : strLt y z = true) :
    strLt x z = true := by
  induction x generalizing y z with
  | nil =>
    cases y with
    | nil => simp [strLt] at hxy
    | cons b bs =>
      cases z with
      | nil => simp [strLt] at hyz
      | cons c cs => rfl
  | cons a as ih =>
    cases y with
    | nil => simp [strLt] at hxy
    | cons b bs =>
      cases z with
      | nil => simp [strLt] at hyz
      | cons c cs =>
        unfold strLt at hxy hyz ⊢
        split at hxy
        · split at hyz
          · rw [if_pos (by omega)]
          · split at hyz
            · cases hyz
            · rw [if_pos (by omega)]
        · split at hxy
          · cases hxy
          · split at hyz
            · rw [if_pos (by omega)]
            · split at hyz
              · cases hyz
              · rw [if_neg (by omega), if_neg (by omega)]
                exact ih bs cs hxy hyz

theorem strLt_total (x y : Str) (h1 : strLt x y = false) (hne : x ≠ y) :
    strLt y x = true := by
  induction x generalizing y with
  | nil =>
    cases y with
    | nil => exact absurd rfl hne
    | cons b bs => simp [strLt] at h1
  | cons a as ih =>
    cases y with
    | nil => rfl
    | cons b bs =>
      unfold strLt at h1 ⊢
      split at h1
      · cases h1
      · split at h1
        · rw [if_pos (by assumption)]
        · have hab : a = b := char_eq_of_toNat_eq a b (by omega)
          subst hab
          rw [if_neg (by omega), if_neg (by omega)]
          exact ih bs h1 (fun h => hne (by rw [h]))

theorem mapInsert_keysAscending (k v : Str) (m : Entries) (hm : KeysAscending m)
    (hk : ∀ e ∈ m, e.1 ≠ k) : KeysAscending (mapInsert k v m) := by
  induction m with
  | nil => simp [mapInsert, KeysAscending]
  | cons x rest ih =>
    have hx := List.pairwise_cons.1 hm
    unfold mapInsert
    by_cases hlt : strLt k x.1 = true
    · rw [if_pos hlt]
      refine List.pairwise_cons.2 ⟨?_, hm⟩
      intro e he
      rcases List.mem_cons.1 he with rfl | h1
      · exact hlt
      · exact strLt_trans _ _ _ hlt (hx.1 e h1)
    · rw [if_neg hlt]
      refine List.pairwise_cons.2 ⟨?_, ih hx.2 (fun e he => hk e (List.mem_cons_of_mem _ he))⟩
      intro e he
      rcases (mem_mapInsert _ _ _ _).1 he with rfl | h1
      · exact strLt_total _ _ (by simpa using hlt) (fun h => hk x (List.mem_cons_self _ _) h.symm)
      · exact hx.1 e h1

theorem leveldbDelete_keysAscending (k : Str) (m : Entries) (hm : KeysAscending m) :
    KeysAscending (leveldbDelete k m) :=
  List.Pairwise.filter _ hm

theorem leveldbPut_keysAscending (k v : Str) (m : Entries) (hm : KeysAscending m) :
    KeysAscending (leveldbPut k v m) :=
  mapInsert_keysAscending k v _ (leveldbDelete_keysAscending k m hm)
    (fun e he => ((mem_leveldbDelete k m e).1 he).2)

theorem commitEntry_keysAscending (pdb : Entries) (entry : Str × Str)
    (hm : KeysAscending pdb) : KeysAscending (commitEntry pdb entry) := by
  unfold commitEntry
  dsimp only
  split
  · split
    · exact leveldbPut_keysAscending _ _ _ hm
    · split
      · exact leveldbDelete_keysAscending _ _ hm
      · exact hm
  · exact hm

/-- The loop of `Commit` keeps the key space ascending. -/
theorem commitLoop_keysAscending (cache pdb : Entries) (hm : KeysAscending pdb) :
    KeysAscending (commitLoop cache pdb) := by
  induction cache generalizing pdb with
  | nil => exact hm
  | cons entry rest ih => exact ih _ (commitEntry_keysAscending pdb entry hm)

/-! ## The scan of `GetAllClubLeaders` -/

theorem selectLeader_some (height : Int) (e : Str × Str) (a : Str)
    (h : selectLeader height e = some a) :
    e.1 = DB_LEADER ++ a ∧ 2 ≤ a.length ∧
      ∃ x, lexical_cast_int e.2 = some x ∧ x ≤ height := by
  obtain ⟨k, v⟩ := e
  unfold selectLeader at h
  split at h
  · rename_i hk
    obtain ⟨hlen, hhead⟩ := hk
    cases hv : lexical_cast_int v with
    | none => simp [hv] at h
    | some x =>
      simp only [hv] at h
      split at h
      · rename_i hx
        simp only [Option.some.injEq] at h
        cases k with
        | nil => simp at hlen
        | cons c cs =>
          simp only [List.head?_cons, Option.some.injEq] at hhead
          simp only [List.drop_succ_cons, List.drop_zero] at h
          subst hhead h
          simp only [List.length_cons] at hlen
          exact ⟨rfl, by omega, x, rfl, hx⟩
      · cases h
  · cases h

theorem selectLeader_of_not_key (height : Int) (k v : Str) (hk : ¬ LeaderKey k) :
    selectLeader height (k, v) = none := by
  unfold selectLeader
  rw [if_neg hk]

theorem selectLeader_of_le (height : Int) (k v : Str) (x : Int) (hk : LeaderKey k)
    (hv : lexical_cast_int v = some x) (hx : x ≤ height) :
    selectLeader height (k, v) = some (k.drop 1) := by
  unfold selectLeader
  rw [if_pos hk]
  simp [hv, hx]

theorem selectLeader_of_gt (height : Int) (k v : Str) (x : Int) (hk : LeaderKey k)
    (hv : lexical_cast_int v = some x) (hx : ¬ x ≤ height) :
    selectLeader height (k, v) = none := by
  unfold selectLeader
  rw [if_pos hk]
  simp [hv, hx]

theorem scanLeaders_of_not_key (height : Int) (k v : Str) (rest : Entries)
    (acc : List Str) (hk : ¬ LeaderKey k) :
    scanLeaders height ((k, v) :: rest) acc = scanLeaders height rest acc := by
  rw [scanLeaders, if_neg hk]

theorem scanLeaders_of_le (height : Int) (k v : Str) (rest : Entries)
    (acc : List Str) (x : Int) (hk : LeaderKey k)
    (hv : lexical_cast_int v = some x) (hx : x ≤ height) :
    scanLeaders height ((k, v) :: rest) acc
      = scanLeaders height rest (acc ++ [k.drop 1]) := by
  rw [scanLeaders, if_pos hk]
  simp [hv, hx]

theorem scanLeaders_of_gt (height : Int) (k v : Str) (rest : Entries)
    (acc : List Str) (x : Int) (hk : LeaderKey k)
    (hv : lexical_cast_int v = some x) (hx : ¬ x ≤ height) :
    scanLeaders height ((k, v) :: rest) acc = scanLeaders height rest acc := by
  rw [scanLeaders, if_pos hk]
  simp [hv, hx]

theorem scanLeaders_of_bad (height : Int) (k v : Str) (rest : Entries)
    (acc : List Str) (hk : LeaderKey k) (hv : lexical_cast_int v = none) :
    scanLeaders height ((k, v) :: rest) acc = (false, acc) := by
  rw [scanLeaders, if_pos hk]
  simp [hv]

/-- The scan of a key space all of whose leader records decode: it succeeds
and appends, in key-space order, the addresses the records contribute. -/
theorem scanLeaders_ok (height : Int) (m : Entries) (acc : List Str)
    (hm : ∀ e ∈ m, LeaderKey e.1 → lexical_cast_int e.2 ≠ none) :
    scanLeaders height m acc = (true, acc ++ m.filterMap (selectLeader height)) := by
  induction m generalizing acc with
  | nil => simp [scanLeaders]
  | cons e rest ih =>
    obtain ⟨k, v⟩ := e
    have ih1 := fun acc1 => ih acc1 (fun x hx => hm x (List.mem_cons_of_mem _ hx))
    have he := hm (k, v) (List.mem_cons_self _ _)
    by_cases hk : LeaderKey k
    · cases hv : lexical_cast_int v with
      | none => exact absurd hv (he hk)
      | some x =>
        by_cases hx : x ≤ height
        · rw [scanLeaders_of_le height k v rest acc x hk hv hx, ih1,
            List.filterMap_cons, selectLeader_of_le height k v x hk hv hx]
          simp
        · rw [scanLeaders_of_gt height k v rest acc x hk hv hx, ih1,
            List.filterMap_cons, selectLeader_of_gt height k v x hk hv hx]
    · rw [scanLeaders_of_not_key height k v rest acc hk, ih1,
        List.filterMap_cons, selectLeader_of_not_key height k v hk]

/-- The scan of a key space up to its first leader record that does not
decode: it fails there, with the addresses contributed by the records before
it. -/
theorem scanLeaders_bad (height : Int) (pre post : Entries) (e : Str × Str)
    (acc : List Str)
    (hpre : ∀ x ∈ pre, LeaderKey x.1 → lexical_cast_int x.2 ≠ none)
    (hk : LeaderKey e.1) (hv : lexical_cast_int e.2 = none) :
    scanLeaders height (pre ++ e :: post) acc
      = (false, acc ++ pre.filterMap (selectLeader height)) := by
  induction pre generalizing acc with
  | nil =>
    obtain ⟨k, v⟩ := e
    rw [List.nil_append, scanLeaders_of_bad height k v post acc hk hv]
    simp
  | cons y rest ih =>
    obtain ⟨k, v⟩ := y
    have ih1 := fun acc1 => ih acc1 (fun x hx => hpre x (List.mem_cons_of_mem _ hx))
    have hy := hpre (k, v) (List.mem_cons_self _ _)
    rw [List.cons_append]
    by_cases hk1 : LeaderKey k
    · cases hv1 : lexical_cast_int v with
      | none => exact absurd hv1 (hy hk1)
      | some x =>
        by_cases hx : x ≤ height
        · rw [scanLeaders_of_le height k v _ acc x hk1 hv1 hx, ih1,
            List.filterMap_cons, selectLeader_of_le height k v x hk1 hv1 hx]
          simp
        · rw [scanLeaders_of_gt height k v _ acc x hk1 hv1 hx, ih1,
            List.filterMap_cons, selectLeader_of_gt height k v x hk1 hv1 hx]
    · rw [scanLeaders_of_not_key height k v _ acc hk1, ih1,
        List.filterMap_cons, selectLeader_of_not_key height k v hk1]

/-- Whatever the scan returns, every address in its output was there before
the scan or is contributed by a record of the key space. -/
theorem scanLeaders_mem (height : Int) (m : Entries) (acc : List Str) (a : Str)
    (ha : a ∈ (scanLeaders height m acc).2) :
    a ∈ acc ∨ ∃ e ∈ m, selectLeader height e = some a := by
  induction m generalizing acc with
  | nil => left; simpa [scanLeaders] using ha
  | cons e rest ih =>
    obtain ⟨k, v⟩ := e
    by_cases hk : LeaderKey k
    · cases hv : lexical_cast_int v with
      | none =>
        left
        rw [scanLeaders_of_bad height k v rest acc hk hv] at ha
        exact ha
      | some x =>
        by_cases hx : x ≤ height
        · rw [scanLeaders_of_le height k v rest acc x hk hv hx] at ha
          rcases ih _ ha with h | ⟨e, he, hsel⟩
          · rcases List.mem_append.1 h with h1 | h1
            · exact Or.inl h1
            · right
              refine ⟨(k, v), List.mem_cons_self _ _, ?_⟩
              simp only [List.mem_singleton] at h1
              rw [selectLeader_of_le height k v x hk hv hx, h1]
          · exact Or.inr ⟨e, List.mem_cons_of_mem _ he, hsel⟩
        · rw [scanLeaders_of_gt height k v rest acc x hk hv hx] at ha
          rcases ih _ ha with h | ⟨e, he, hsel⟩
          · exact Or.inl h
          · exact Or.inr ⟨e, List.mem_cons_of_mem _ he, hsel⟩
    · rw [scanLeaders_of_not_key height k v rest acc hk] at ha
      rcases ih _ ha with h | ⟨e, he, hsel⟩
      · exact Or.inl h
      · exact Or.inr ⟨e, List.mem_cons_of_mem _ he, hsel⟩

/-- An address is reported only if the key space holds a record under
`DB_LEADER + address`. -/
theorem scanLeaders_no_record (height : Int) (m : Entries) (a : Str)
    (hm : ∀ e ∈ m, e.1 ≠ DB_LEADER ++ a) :
    a ∉ (scanLeaders height m []).2 := by
  intro ha
  rcases scanLeaders_mem height m [] a ha with h | ⟨e, he, hsel⟩
  · cases h
  · exact hm e he (selectLeader_some height e a hsel).1

/-! ## Recording and committing a single operation -/

theorem recordOp_empty (pdb : Entries) (a : Str) (h : Int) (op : Str) (h0 : 0 ≤ h) :
    recordOp ⟨[], pdb⟩ a h op
      = (true, ⟨[(a ++ ['_'] ++ lexical_cast_string h, op)], pdb⟩) := by
  simp [recordOp, not_lt.2 h0, mapFind, mapInsert]

theorem recordOp_same_key (pdb : Entries) (key op1 : Str) (a : Str) (h : Int) (op : Str)
    (h0 : 0 ≤ h) (hkey : key = a ++ ['_'] ++ lexical_cast_string h) :
    recordOp ⟨[(key, op1)], pdb⟩ a h op = (true, ⟨[(key, op)], pdb⟩) := by
  subst hkey
  simp [recordOp, not_lt.2 h0, mapFind, mapAssign]

theorem recordOp_pdb (db : DB) (a : Str) (h : Int) (op : Str) :
    (recordOp db a h op).2.pdb = db.pdb := by
  unfold recordOp
  split
  · rfl
  · dsimp only
    split <;> rfl

theorem commitEntry_add (pdb : Entries) (a : Str) (h : Int)
    (ha : ∀ c ∈ a, c ≠ '_') (h0 : 0 ≤ h) :
    commitEntry pdb (a ++ ['_'] ++ lexical_cast_string h, ADD_OP)
      = leveldbPut (DB_LEADER ++ a) (lexical_cast_string h) pdb := by
  simp only [commitEntry, split_pending_key a h ha h0, Write]
  simp

theorem commitEntry_remove (pdb : Entries) (a : Str) (h : Int)
    (ha : ∀ c ∈ a, c ≠ '_') (h0 : 0 ≤ h) :
    commitEntry pdb (a ++ ['_'] ++ lexical_cast_string h, REMOVE_OP)
      = leveldbDelete (DB_LEADER ++ a) pdb := by
  simp only [commitEntry, split_pending_key a h ha h0, Delete]
  simp [ADD_OP, REMOVE_OP]

/-- The state after `AddClubLeader(a, h)` and `Commit()` from an empty
cache. -/
theorem add_commit (pdb : Entries) (a : Str) (h : Int)
    (ha : ∀ c ∈ a, c ≠ '_') (h0 : 0 ≤ h) :
    Commit (AddClubLeader ⟨[], pdb⟩ a h).2
      = (true, ⟨[], leveldbPut (DB_LEADER ++ a) (lexical_cast_string h) pdb⟩) := by
  simp only [AddClubLeader, recordOp_empty pdb a h ADD_OP h0, Commit, commitLoop,
    commitEntry_add pdb a h ha h0]
  simp

/-- The state after `RemoveClubLeader(a, h)` and `Commit()` from an empty
cache. -/
theorem remove_commit (pdb : Entries) (a : Str) (h : Int)
    (ha : ∀ c ∈ a, c ≠ '_') (h0 : 0 ≤ h) :
    Commit (RemoveClubLeader ⟨[], pdb⟩ a h).2
      = (true, ⟨[], leveldbDelete (DB_LEADER ++ a) pdb⟩) := by
  simp only [RemoveClubLeader, recordOp_empty pdb a h REMOVE_OP h0, Commit, commitLoop,
    commitEntry_remove pdb a h ha h0]
  simp

/-! ## String order on pending keys -/

theorem strLt_irrefl (s : Str) : strLt s s = false := by
  induction s with
  | nil => rfl
  | cons c cs ih => simp [strLt, ih]

theorem strLt_append_left (p x y : Str) : strLt (p ++ x) (p ++ y) = strLt x y := by
  induction p with
  | nil => rfl
  | cons c cs ih => simp [strLt, ih]

theorem recordOp_mem (db : DB) (a : Str) (h : Int) (op : Str) (h0 : 0 ≤ h) :
    (recordOp db a h op).1 = true ∧
      (a ++ ['_'] ++ lexical_cast_string h, op) ∈ (recordOp db a h op).2.cache := by
  unfold recordOp
  rw [if_neg (not_lt.2 h0)]
  dsimp only
  split
  · rename_i hfind
    refine ⟨rfl, ?_⟩
    obtain ⟨e, he, hk⟩ := List.any_eq_true.1 hfind
    have hk1 : e.1 = a ++ ['_'] ++ lexical_cast_string h := by simpa using hk
    refine List.mem_map.2 ⟨e, he, ?_⟩
    rw [if_pos hk1, hk1]
  · exact ⟨rfl, (mem_mapInsert _ _ _ _).2 (Or.inl rfl)⟩

/-- A pending key built from an address that contains `'_'` splits into more
than two parts. -/
theorem split_delimited_address (a : Str) (s : Str) (ha : '_' ∈ a) :
    2 < (split (fun c => c == '_') (a ++ ['_'] ++ s)).length := by
  rw [split_length, List.countP_append, List.countP_append]
  have h1 : 0 < a.countP (fun c => c == '_') :=
    List.countP_pos_iff.2 ⟨'_', ha, by simp⟩
  have h2 : List.countP (fun c => c == '_') ['_'] = 1 := by decide
  omega

/-! ## The claims -/

/-- C1, as stated, fails: the one-byte address `"x"` recorded at height 5 and
committed is stored under `"Lx"`, a key of length 2, which the scan passes
over, so `GetAllClubLeaders(5)` succeeds with an empty list. -/
theorem C1_counterexample :
    (['x'] : Str) ≠ [] ∧ (∀ c ∈ (['x'] : Str), c ≠ '_') ∧ (0 : Int) ≤ 5 ∧ (5 : Int) ≤ 5 ∧
      (Commit (AddClubLeader ⟨[], []⟩ ['x'] 5).2).2.pdb = [(['L', 'x'], ['5'])] ∧
      (GetAllClubLeaders (Commit (AddClubLeader ⟨[], []⟩ ['x'] 5).2).2 [] 5).1 = (true, []) ∧
      (['x'] : Str) ∉ (GetAllClubLeaders (Commit (AddClubLeader ⟨[], []⟩ ['x'] 5).2).2 [] 5).1.2 := by
  decide

/-- C1, amended: for every address `a` of at least two bytes without `'_'` and
all heights `0 <= h <= H` (within `int`), from an empty cache and a store all
of whose values decode, `AddClubLeader(a, h)` then `Commit()` makes
`GetAllClubLeaders(H)` succeed with `a` in its result. -/
theorem C1_committed_leader_is_listed (pdb : Entries) (leaders : List Str) (a : Str)
    (h H : Int) (hlen : 2 ≤ a.length) (ha : ∀ c ∈ a, c ≠ '_') (h0 : 0 ≤ h) (hH : h ≤ H)
    (hmax : H ≤ INT_MAX) (hpdb : ∀ e ∈ pdb, lexical_cast_int e.2 ≠ none) :
    (GetAllClubLeaders (Commit (AddClubLeader ⟨[], pdb⟩ a h).2).2 leaders H).1.1 = true ∧
      a ∈ (GetAllClubLeaders (Commit (AddClubLeader ⟨[], pdb⟩ a h).2).2 leaders H).1.2 := by
  have hparse := lexical_cast_int_string h h0 (le_trans hH hmax)
  have hvalid : ∀ e ∈ leveldbPut (DB_LEADER ++ a) (lexical_cast_string h) pdb,
      LeaderKey e.1 → lexical_cast_int e.2 ≠ none := by
    intro e he _
    rcases (mem_leveldbPut _ _ _ _).1 he with rfl | ⟨h1, _⟩
    · simp [hparse]
    · exact hpdb e h1
  have hkey : LeaderKey (DB_LEADER ++ a) := by
    refine ⟨?_, rfl⟩
    simp only [DB_LEADER, List.singleton_append, List.length_cons]
    omega
  rw [add_commit pdb a h ha h0]
  simp only [GetAllClubLeaders, not_lt.2 (le_trans h0 hH), if_false,
    scanLeaders_ok H _ [] hvalid, List.nil_append, true_and]
  refine List.mem_filterMap.2 ⟨(DB_LEADER ++ a, lexical_cast_string h),
    (mem_leveldbPut _ _ _ _).2 (Or.inl rfl), ?_⟩
  rw [selectLeader_of_le H _ _ h hkey hparse hH]
  rfl

/-- C1, amended, at the address `"ab"` and the spec's heights `h = H = 5`, on a
store that already holds a leader. -/
theorem C1_committed_leader_is_listed_witness :
    (GetAllClubLeaders
        (Commit (AddClubLeader ⟨[], [(['L', 'z', 'z'], ['7'])]⟩ ['a', 'b'] 5).2).2 [] 5).1.1
        = true ∧
      (['a', 'b'] : Str) ∈ (GetAllClubLeaders
        (Commit (AddClubLeader ⟨[], [(['L', 'z', 'z'], ['7'])]⟩ ['a', 'b'] 5).2).2 [] 5).1.2 :=
  C1_committed_leader_is_listed [(['L', 'z', 'z'], ['7'])] [] ['a', 'b'] 5 5
    (by decide) (by decide) (by decide) (by decide) (by decide) (by decide)

/-- C2, as stated, fails: after `AddClubLeader("a", 9)`, `AddClubLeader("a", 10)`
and `Commit()` the stored height of `"a"` is `"9"`, not that of the most
recently recorded height 10 (the cache is walked in key order, and
`"a_10" < "a_9"`). -/
theorem C2_counterexample :
    (∀ c ∈ (['a'] : Str), c ≠ '_') ∧
      (Commit (AddClubLeader (AddClubLeader ⟨[], []⟩ ['a'] 9).2 ['a'] 10).2).2.pdb
        = [(['L', 'a'], ['9'])] ∧
      lexical_cast_string 10 = ['1', '0'] ∧
      (['L', 'a'], lexical_cast_string 10) ∉
        (Commit (AddClubLeader (AddClubLeader ⟨[], []⟩ ['a'] 9).2 ['a'] 10).2).2.pdb := by
  decide

/-- C2, amended: for every address `a` without `'_'` and heights `h1, h2 >= 0`,
from an empty cache, `AddClubLeader(a, h1)`, `AddClubLeader(a, h2)`, `Commit()`
returns true, empties the cache and leaves exactly one stored record under
`'L' + a`; its value is the decimal string of `h2`, unless that string is
bytewise smaller than the decimal string of `h1`, in which case it is the
decimal string of `h1`. -/
theorem C2_two_adds_leave_one_record (pdb : Entries) (a : Str) (h1 h2 : Int)
    (ha : ∀ c ∈ a, c ≠ '_') (h10 : 0 ≤ h1) (h20 : 0 ≤ h2) :
    (Commit (AddClubLeader (AddClubLeader ⟨[], pdb⟩ a h1).2 a h2).2).1 = true ∧
      (Commit (AddClubLeader (AddClubLeader ⟨[], pdb⟩ a h1).2 a h2).2).2.cache = [] ∧
      (Commit (AddClubLeader (AddClubLeader ⟨[], pdb⟩ a h1).2 a h2).2).2.pdb
        = leveldbPut (DB_LEADER ++ a)
            (if strLt (lexical_cast_string h2) (lexical_cast_string h1)
              then lexical_cast_string h1 else lexical_cast_string h2) pdb ∧
      (Commit (AddClubLeader (AddClubLeader ⟨[], pdb⟩ a h1).2 a h2).2).2.pdb.filter
          (fun e => e.1 == DB_LEADER ++ a)
        = [(DB_LEADER ++ a,
            if strLt (lexical_cast_string h2) (lexical_cast_string h1)
              then lexical_cast_string h1 else lexical_cast_string h2)] := by
  have key : (Commit (AddClubLeader (AddClubLeader ⟨[], pdb⟩ a h1).2 a h2).2)
      = (true, ⟨[], leveldbPut (DB_LEADER ++ a)
            (if strLt (lexical_cast_string h2) (lexical_cast_string h1)
              then lexical_cast_string h1 else lexical_cast_string h2) pdb⟩) := by
    simp only [AddClubLeader, recordOp_empty pdb a h1 ADD_OP h10]
    by_cases heq : lexical_cast_string h2 = lexical_cast_string h1
    · rw [recordOp_same_key pdb _ ADD_OP a h2 ADD_OP h20 (by rw [heq])]
      simp only [Commit, commitLoop, commitEntry_add pdb a h1 ha h10, heq, strLt_irrefl]
      simp
    · have hne : ¬ (a ++ ['_'] ++ lexical_cast_string h1
          = a ++ ['_'] ++ lexical_cast_string h2) := by
        intro hk
        exact heq (List.append_cancel_left hk).symm
      have hrec : recordOp ⟨[(a ++ ['_'] ++ lexical_cast_string h1, ADD_OP)], pdb⟩ a h2 ADD_OP
          = (true, ⟨mapInsert (a ++ ['_'] ++ lexical_cast_string h2) ADD_OP
              [(a ++ ['_'] ++ lexical_cast_string h1, ADD_OP)], pdb⟩) := by
        have hfind : mapFind (a ++ ['_'] ++ lexical_cast_string h2)
            [(a ++ ['_'] ++ lexical_cast_string h1, ADD_OP)] = false := by
          simp only [mapFind, List.any_cons, List.any_nil, Bool.or_false, beq_eq_false_iff_ne]
          exact hne
        unfold recordOp
        rw [if_neg (not_lt.2 h20)]
        dsimp only
        rw [hfind]
        rfl
      rw [hrec]
      simp only [mapInsert, strLt_append_left]
      by_cases hlt : strLt (lexical_cast_string h2) (lexical_cast_string h1) = true
      · simp only [hlt, if_true, Commit, commitLoop, commitEntry_add _ a h1 ha h10,
          commitEntry_add _ a h2 ha h20, leveldbPut_leveldbPut]
        simp
      · simp only [hlt, if_false, Commit, commitLoop, commitEntry_add _ a h1 ha h10,
          commitEntry_add _ a h2 ha h20, leveldbPut_leveldbPut]
        simp
  rw [key]
  exact ⟨rfl, rfl, rfl, filter_key_leveldbPut _ _ _⟩

/-- C2, amended, at the spec's case `h1 = 10`, `h2 = 20` for the address
`"a"`. -/
theorem C2_two_adds_leave_one_record_witness :
    (Commit (AddClubLeader (AddClubLeader ⟨[], []⟩ ['a'] 10).2 ['a'] 20).2).2.pdb.filter
        (fun e => e.1 == DB_LEADER ++ ['a'])
      = [(DB_LEADER ++ ['a'],
          if strLt (lexical_cast_string 20) (lexical_cast_string 10)
            then lexical_cast_string 10 else lexical_cast_string 20)] :=
  (C2_two_adds_leave_one_record [] ['a'] 10 20 (by decide) (by decide) (by decide)).2.2.2

/-- C3, as stated, fails: for the address `"a_b"` and height 5 both recording
calls return true and put the key `"a_b_5"` in the pending cache. -/
theorem C3_counterexample :
    '_' ∈ (['a', '_', 'b'] : Str) ∧ (0 : Int) ≤ 5 ∧
      AddClubLeader ⟨[], []⟩ ['a', '_', 'b'] 5
        = (true, ⟨[(['a', '_', 'b', '_', '5'], ['A'])], []⟩) ∧
      RemoveClubLeader ⟨[], []⟩ ['a', '_', 'b'] 5
        = (true, ⟨[(['a', '_', 'b', '_', '5'], ['R'])], []⟩) := by
  decide

/-- C3, amended: for every address that contains `'_'` and every height
`h >= 0`, `AddClubLeader` and `RemoveClubLeader` return true and leave the key
`address + "_" + decimal(h)` in the pending cache with their op, the store
unchanged; that key splits on `'_'` into more than two parts. -/
theorem C3_delimited_address_is_recorded (db : DB) (a : Str) (h : Int)
    (ha : '_' ∈ a) (h0 : 0 ≤ h) :
    (AddClubLeader db a h).1 = true ∧
      (a ++ ['_'] ++ lexical_cast_string h, ADD_OP) ∈ (AddClubLeader db a h).2.cache ∧
      (AddClubLeader db a h).2.pdb = db.pdb ∧
      (RemoveClubLeader db a h).1 = true ∧
      (a ++ ['_'] ++ lexical_cast_string h, REMOVE_OP) ∈ (RemoveClubLeader db a h).2.cache ∧
      (RemoveClubLeader db a h).2.pdb = db.pdb ∧
      2 < (split (fun c => c == '_') (a ++ ['_'] ++ lexical_cast_string h)).length :=
  ⟨(recordOp_mem db a h ADD_OP h0).1, (recordOp_mem db a h ADD_OP h0).2,
    recordOp_pdb db a h ADD_OP,
    (recordOp_mem db a h REMOVE_OP h0).1, (recordOp_mem db a h REMOVE_OP h0).2,
    recordOp_pdb db a h REMOVE_OP, split_delimited_address a _ ha⟩

/-- C3, amended, at the address `"a_b"` and height 5 on an empty state. -/
theorem C3_delimited_address_is_recorded_witness :
    (AddClubLeader ⟨[], []⟩ ['a', '_', 'b'] 5).1 = true ∧
      (['a', '_', 'b'] ++ ['_'] ++ lexical_cast_string 5, ADD_OP)
        ∈ (AddClubLeader ⟨[], []⟩ ['a', '_', 'b'] 5).2.cache :=
  ⟨(C3_delimited_address_is_recorded ⟨[], []⟩ ['a', '_', 'b'] 5 (by decide) (by decide)).1,
    (C3_delimited_address_is_recorded ⟨[], []⟩ ['a', '_', 'b'] 5 (by decide) (by decide)).2.1⟩

theorem runCalls_pdb (db : DB) (calls : List RecordCall) :
    (runCalls db calls).pdb = db.pdb := by
  induction calls generalizing db with
  | nil => rfl
  | cons c rest ih =>
    cases c with
    | add a h => rw [runCalls, ih, AddClubLeader, recordOp_pdb]
    | remove a h => rw [runCalls, ih, RemoveClubLeader, recordOp_pdb]

theorem GetAllClubLeaders_of_pdb (db1 db2 : DB) (leaders : List Str) (H : Int)
    (h : db1.pdb = db2.pdb) :
    (GetAllClubLeaders db1 leaders H).1 = (GetAllClubLeaders db2 leaders H).1 := by
  unfold GetAllClubLeaders
  split
  · rfl
  · rw [h]

theorem GetAllClubLeaders_no_record (db : DB) (leaders : List Str) (H : Int) (a : Str)
    (h0 : 0 ≤ H) (hm : ∀ e ∈ db.pdb, e.1 ≠ DB_LEADER ++ a) :
    a ∉ (GetAllClubLeaders db leaders H).1.2 := by
  unfold GetAllClubLeaders
  rw [if_neg (not_lt.2 h0)]
  exact scanLeaders_no_record H db.pdb a hm

/-- C4, as stated, fails: on the store `"Lab" -> "x"`, `"Lcd" -> "1"` the scan
does not skip the undecodable first record; `GetAllClubLeaders(5)` returns
false and the well-formed record `"Lcd"` after it is not reported. -/
theorem C4_counterexample :
    (0 : Int) ≤ 5 ∧ lexical_cast_int ['x'] = none ∧ lexical_cast_int ['1'] = some 1 ∧
      GetAllClubLeaders ⟨[], [(['L', 'a', 'b'], ['x']), (['L', 'c', 'd'], ['1'])]⟩ [] 5
        = ((false, []), ⟨[], [(['L', 'a', 'b'], ['x']), (['L', 'c', 'd'], ['1'])]⟩) := by
  decide

/-- C4, amended: for every store and every `H >= 0`, if some record with a key
longer than two bytes that starts with `'L'` has a value that does not decode
as an `int`, `GetAllClubLeaders(H)` returns false; the scan stops at the first
such record, and the output then holds exactly the addresses of the decodable
leader records before it whose height is at most `H`, in key order. -/
theorem C4_undecodable_record_aborts_scan (db : DB) (leaders : List Str) (H : Int)
    (h0 : 0 ≤ H)
    (hbad : ∃ e ∈ db.pdb, LeaderKey e.1 ∧ lexical_cast_int e.2 = none) :
    (GetAllClubLeaders db leaders H).1.1 = false ∧
      (GetAllClubLeaders db leaders H).2 = db ∧
      ∃ pre e post, db.pdb = pre ++ e :: post ∧
        (∀ x ∈ pre, LeaderKey x.1 → lexical_cast_int x.2 ≠ none) ∧
        LeaderKey e.1 ∧ lexical_cast_int e.2 = none ∧
        (GetAllClubLeaders db leaders H).1.2 = pre.filterMap (selectLeader H) := by
  have hsplit : ∀ m : Entries, (∃ e ∈ m, LeaderKey e.1 ∧ lexical_cast_int e.2 = none) →
      ∃ pre e post, m = pre ++ e :: post ∧
        (∀ x ∈ pre, LeaderKey x.1 → lexical_cast_int x.2 ≠ none) ∧
        LeaderKey e.1 ∧ lexical_cast_int e.2 = none := by
    intro m
    induction m with
    | nil => rintro ⟨e, he, _⟩; cases he
    | cons y rest ih =>
      rintro ⟨e, he, hk, hv⟩
      by_cases hy : LeaderKey y.1 ∧ lexical_cast_int y.2 = none
      · exact ⟨[], y, rest, rfl, fun x hx => absurd hx (List.not_mem_nil x), hy.1, hy.2⟩
      · have he1 : e ∈ rest := by
          rcases List.mem_cons.1 he with rfl | h1
          · exact absurd ⟨hk, hv⟩ hy
          · exact h1
        obtain ⟨pre, b, post, hm, hpre, hbk, hbv⟩ := ih ⟨e, he1, hk, hv⟩
        refine ⟨y :: pre, b, post, by rw [hm]; rfl, ?_, hbk, hbv⟩
        intro x hx hxk hxv
        rcases List.mem_cons.1 hx with rfl | h1
        · exact hy ⟨hxk, hxv⟩
        · exact hpre x h1 hxk hxv
  obtain ⟨pre, e, post, hm, hpre, hk, hv⟩ := hsplit db.pdb hbad
  have hscan := scanLeaders_bad H pre post e [] hpre hk hv
  rw [← hm, List.nil_append] at hscan
  have hget : GetAllClubLeaders db leaders H
      = ((false, pre.filterMap (selectLeader H)), db) := by
    rw [GetAllClubLeaders, if_neg (not_lt.2 h0), hscan]
  rw [hget]
  exact ⟨rfl, rfl, pre, e, post, hm, hpre, hk, hv, rfl⟩

/-- C4, amended, on the store `"Lab" -> "1"`, `"Lcd" -> "x"`, `"Lef" -> "2"`
with `H = 5`. -/
theorem C4_undecodable_record_aborts_scan_witness :
    (GetAllClubLeaders ⟨[], [(['L', 'a', 'b'], ['1']), (['L', 'c', 'd'], ['x']),
        (['L', 'e', 'f'], ['2'])]⟩ [] 5).1.1 = false :=
  (C4_undecodable_record_aborts_scan ⟨[], [(['L', 'a', 'b'], ['1']), (['L', 'c', 'd'], ['x']),
      (['L', 'e', 'f'], ['2'])]⟩ [] 5 (by decide)
    ⟨(['L', 'c', 'd'], ['x']), by decide, by decide, by decide⟩).1

/-- C5: for every address `a` without `'_'` and height `h >= 0`, from an empty
cache and any store, `AddClubLeader(a, h)` then `RemoveClubLeader(a, h)` leaves
the single pending entry of `(a, h)`, with op Remove; the following `Commit()`
returns true, empties the cache and leaves no stored record under `'L' + a`. -/
theorem C5_add_then_remove_commits_no_record (pdb : Entries) (a : Str) (h : Int)
    (ha : ∀ c ∈ a, c ≠ '_') (h0 : 0 ≤ h) :
    RemoveClubLeader (AddClubLeader ⟨[], pdb⟩ a h).2 a h
        = (true, ⟨[(a ++ ['_'] ++ lexical_cast_string h, REMOVE_OP)], pdb⟩) ∧
      (Commit (RemoveClubLeader (AddClubLeader ⟨[], pdb⟩ a h).2 a h).2).1 = true ∧
      (Commit (RemoveClubLeader (AddClubLeader ⟨[], pdb⟩ a h).2 a h).2).2.cache = [] ∧
      ∀ e ∈ (Commit (RemoveClubLeader (AddClubLeader ⟨[], pdb⟩ a h).2 a h).2).2.pdb,
        e.1 ≠ DB_LEADER ++ a := by
  have hrec : RemoveClubLeader (AddClubLeader ⟨[], pdb⟩ a h).2 a h
      = (true, ⟨[(a ++ ['_'] ++ lexical_cast_string h, REMOVE_OP)], pdb⟩) := by
    simp only [AddClubLeader, RemoveClubLeader, recordOp_empty pdb a h ADD_OP h0]
    exact recordOp_same_key pdb _ ADD_OP a h REMOVE_OP h0 rfl
  have hcommit : Commit (RemoveClubLeader (AddClubLeader ⟨[], pdb⟩ a h).2 a h).2
      = (true, ⟨[], leveldbDelete (DB_LEADER ++ a) pdb⟩) := by
    rw [hrec]
    simp only [Commit, commitLoop, commitEntry_remove pdb a h ha h0]
    simp
  rw [hcommit]
  exact ⟨hrec, rfl, rfl, fun e he => ((mem_leveldbDelete _ _ _).1 he).2⟩

/-- C5 at the address `"ab"`, height 5, on a store that holds `"ab"`: the
pending entry has op Remove, and the stored record is gone after `Commit()`. -/
theorem C5_add_then_remove_commits_no_record_witness :
    RemoveClubLeader (AddClubLeader ⟨[], [(['L', 'a', 'b'], ['3'])]⟩ ['a', 'b'] 5).2 ['a', 'b'] 5
        = (true, ⟨[(['a', 'b'] ++ ['_'] ++ lexical_cast_string 5, REMOVE_OP)],
            [(['L', 'a', 'b'], ['3'])]⟩) ∧
      (DB_LEADER ++ ['a', 'b'], ['3']) ∉ (Commit (RemoveClubLeader
        (AddClubLeader ⟨[], [(['L', 'a', 'b'], ['3'])]⟩ ['a', 'b'] 5).2 ['a', 'b'] 5).2).2.pdb :=
  ⟨(C5_add_then_remove_commits_no_record [(['L', 'a', 'b'], ['3'])] ['a', 'b'] 5
      (by decide) (by decide)).1,
    fun hmem => (C5_add_then_remove_commits_no_record [(['L', 'a', 'b'], ['3'])] ['a', 'b'] 5
      (by decide) (by decide)).2.2.2 _ hmem rfl⟩

/-- C6: for every address `a` without `'_'` and heights `0 <= H < h`, from an
empty cache and any store, after `AddClubLeader(a, h)` and `Commit()` the
output of `GetAllClubLeaders(H)` does not contain `a`. -/
theorem C6_leader_above_threshold_not_listed (pdb : Entries) (leaders : List Str)
    (a : Str) (h H : Int) (ha : ∀ c ∈ a, c ≠ '_') (h0 : 0 ≤ H) (hH : H < h) :
    a ∉ (GetAllClubLeaders (Commit (AddClubLeader ⟨[], pdb⟩ a h).2).2 leaders H).1.2 := by
  have hh0 : 0 ≤ h := le_of_lt (lt_of_le_of_lt h0 hH)
  rw [add_commit pdb a h ha hh0]
  simp only [GetAllClubLeaders, if_neg (not_lt.2 h0)]
  intro hmem
  rcases scanLeaders_mem H _ [] a hmem with hnil | ⟨e, he, hsel⟩
  · cases hnil
  · obtain ⟨hkey, -, x, hx, hxH⟩ := selectLeader_some H e a hsel
    rcases (mem_leveldbPut _ _ _ _).1 he with rfl | ⟨_, hne⟩
    · have := lexical_cast_int_string_some h x hh0 hx
      omega
    · exact hne hkey

/-- C6 at the spec's case `h = 5`, `H = 4`, for the address `"ab"`. -/
theorem C6_leader_above_threshold_not_listed_witness :
    (['a', 'b'] : Str) ∉
      (GetAllClubLeaders (Commit (AddClubLeader ⟨[], []⟩ ['a', 'b'] 5).2).2 [] 4).1.2 :=
  C6_leader_above_threshold_not_listed [] [] ['a', 'b'] 5 4 (by decide) (by decide) (by decide)

/-- C7: pending ops are invisible to queries. For every state, every height
`H` and every sequence of `AddClubLeader` / `RemoveClubLeader` calls with no
`Commit` between them, the store is the same after the calls as before, and
`GetAllClubLeaders(H)` returns the same flag and list; `GetAllClubLeaders`
leaves the state (store and pending cache) as it found it; and on a store with
no record for `a`, `AddClubLeader(a, 5)` then `GetAllClubLeaders(5)` does not
report `a`. -/
theorem C7_pending_ops_are_invisible (db : DB) (calls : List RecordCall)
    (leaders : List Str) (H : Int) :
    (runCalls db calls).pdb = db.pdb ∧
      (GetAllClubLeaders (runCalls db calls) leaders H).1
        = (GetAllClubLeaders db leaders H).1 ∧
      (GetAllClubLeaders db leaders H).2 = db ∧
      ∀ a : Str, (∀ e ∈ db.pdb, e.1 ≠ DB_LEADER ++ a) →
        a ∉ (GetAllClubLeaders (AddClubLeader db a 5).2 leaders 5).1.2 := by
  refine ⟨runCalls_pdb db calls,
    GetAllClubLeaders_of_pdb _ _ leaders H (runCalls_pdb db calls), ?_, ?_⟩
  · unfold GetAllClubLeaders
    split <;> rfl
  · intro a hno
    apply GetAllClubLeaders_no_record _ leaders 5 a (by decide)
    rw [AddClubLeader, recordOp_pdb]
    exact hno

/-- C7 on a store holding `"cd"`, for the address `"ab"`: recorded at height 5
and not committed, it is not reported at height 5. -/
theorem C7_pending_ops_are_invisible_witness :
    (['a', 'b'] : Str) ∉ (GetAllClubLeaders
      (AddClubLeader ⟨[], [(['L', 'c', 'd'], ['1'])]⟩ ['a', 'b'] 5).2 [] 5).1.2 :=
  (C7_pending_ops_are_invisible ⟨[], [(['L', 'c', 'd'], ['1'])]⟩ [] [] 5).2.2.2
    ['a', 'b'] (by decide)

/-- C8: for every address `a` without `'_'` and heights `h1, h2, H >= 0`, from
an empty cache, `AddClubLeader(a, h1)`, `Commit()`, `RemoveClubLeader(a, h2)`,
`Commit()` leaves no stored record under `'L' + a` (the store is the initial one
without the records of that key), so `GetAllClubLeaders(H)` does not report
`a`; and it succeeds when all values of the initial store decode. -/
theorem C8_committed_remove_deletes_record (pdb : Entries) (leaders : List Str)
    (a : Str) (h1 h2 H : Int) (ha : ∀ c ∈ a, c ≠ '_') (h10 : 0 ≤ h1) (h20 : 0 ≤ h2)
    (hH : 0 ≤ H) :
    (Commit (RemoveClubLeader (Commit (AddClubLeader ⟨[], pdb⟩ a h1).2).2 a h2).2).2.pdb
        = leveldbDelete (DB_LEADER ++ a) pdb ∧
      (∀ e ∈ (Commit (RemoveClubLeader
          (Commit (AddClubLeader ⟨[], pdb⟩ a h1).2).2 a h2).2).2.pdb,
        e.1 ≠ DB_LEADER ++ a) ∧
      a ∉ (GetAllClubLeaders (Commit (RemoveClubLeader
          (Commit (AddClubLeader ⟨[], pdb⟩ a h1).2).2 a h2).2).2 leaders H).1.2 ∧
      ((∀ e ∈ pdb, lexical_cast_int e.2 ≠ none) →
        (GetAllClubLeaders (Commit (RemoveClubLeader
          (Commit (AddClubLeader ⟨[], pdb⟩ a h1).2).2 a h2).2).2 leaders H).1.1 = true) := by
  have hstate : Commit (RemoveClubLeader (Commit (AddClubLeader ⟨[], pdb⟩ a h1).2).2 a h2).2
      = (true, ⟨[], leveldbDelete (DB_LEADER ++ a) pdb⟩) := by
    rw [add_commit pdb a h1 ha h10, remove_commit _ a h2 ha h20, leveldbDelete_leveldbPut]
  have hno : ∀ e ∈ leveldbDelete (DB_LEADER ++ a) pdb, e.1 ≠ DB_LEADER ++ a :=
    fun e he => ((mem_leveldbDelete _ _ _).1 he).2
  rw [hstate]
  refine ⟨rfl, hno, GetAllClubLeaders_no_record _ leaders H a hH hno, ?_⟩
  intro hvalid
  rw [GetAllClubLeaders, if_neg (not_lt.2 hH),
    scanLeaders_ok H _ [] (fun e he _ => hvalid e ((mem_leveldbDelete _ _ _).1 he).1)]

/-- C8 at the spec's case `h1 = h2 = 5`, `H = 100`, for the address `"ab"`. -/
theorem C8_committed_remove_deletes_record_witness :
    (['a', 'b'] : Str) ∉ (GetAllClubLeaders (Commit (RemoveClubLeader
      (Commit (AddClubLeader ⟨[], []⟩ ['a', 'b'] 5).2).2 ['a', 'b'] 5).2).2 [] 100).1.2 :=
  (C8_committed_remove_deletes_record [] [] ['a', 'b'] 5 5 100
    (by decide) (by decide) (by decide) (by decide)).2.2.1

/-- C9: round trip. For every address `a` without `'_'` and height
`0 <= h <= INT_MAX`, after `AddClubLeader(a, h)` and `Commit()` from an empty
cache the store holds the key `'L' + a` with the value `decimal(h)`, and no
other record under that key; dropping the first byte of the key gives `a`, and
parsing the value as `GetAllClubLeaders` does gives `h`. -/
theorem C9_stored_record_round_trip (pdb : Entries) (a : Str) (h : Int)
    (ha : ∀ c ∈ a, c ≠ '_') (h0 : 0 ≤ h) (hmax : h ≤ INT_MAX) :
    (DB_LEADER ++ a, decimal h.toNat) ∈ (Commit (AddClubLeader ⟨[], pdb⟩ a h).2).2.pdb ∧
      (Commit (AddClubLeader ⟨[], pdb⟩ a h).2).2.pdb.filter (fun e => e.1 == DB_LEADER ++ a)
        = [(DB_LEADER ++ a, decimal h.toNat)] ∧
      (DB_LEADER ++ a).drop 1 = a ∧
      lexical_cast_int (decimal h.toNat) = some h := by
  rw [add_commit pdb a h ha h0, lexical_cast_string_nonneg h h0]
  refine ⟨(mem_leveldbPut _ _ _ _).2 (Or.inl rfl), filter_key_leveldbPut _ _ _, rfl, ?_⟩
  rw [← lexical_cast_string_nonneg h h0]
  exact lexical_cast_int_string h h0 hmax

/-- C9 at the largest height, `INT_MAX`, for the address `"ab"`. -/
theorem C9_stored_record_round_trip_witness :
    lexical_cast_int (decimal (2147483647 : Int).toNat) = some 2147483647 :=
  (C9_stored_record_round_trip [] ['a', 'b'] 2147483647
    (by decide) (by decide) (by decide)).2.2.2

/-- C10: a negative height is rejected with no effect. For every address and
every height `< 0`, `AddClubLeader` and `RemoveClubLeader` return false with
the state (cache and store) unchanged, and `GetAllClubLeaders` returns false
with the state unchanged and the caller's vector untouched, whatever the store
holds. -/
theorem C10_negative_height_is_rejected (db : DB) (a : Str) (leaders : List Str)
    (h : Int) (hneg : h < 0) :
    AddClubLeader db a h = (false, db) ∧
      RemoveClubLeader db a h = (false, db) ∧
      GetAllClubLeaders db leaders h = ((false, leaders), db) := by
  simp [AddClubLeader, RemoveClubLeader, recordOp, GetAllClubLeaders, hneg]

/-- C10 at the spec's case: the empty address and height -1, on a state with a
pending entry and a stored record. -/
theorem C10_negative_height_is_rejected_witness :
    AddClubLeader ⟨[(['c', '_', '1'], ['A'])], [(['L', 'a', 'b'], ['3'])]⟩ [] (-1)
      = (false, ⟨[(['c', '_', '1'], ['A'])], [(['L', 'a', 'b'], ['3'])]⟩) :=
  (C10_negative_height_is_rejected ⟨[(['c', '_', '1'], ['A'])], [(['L', 'a', 'b'], ['3'])]⟩
    [] [] (-1) (by decide)).1

/-! ## The calls issued by `Commit` -/

theorem REMOVE_OP_ne_ADD_OP : REMOVE_OP ≠ ADD_OP := by decide

/-- The effect of an ok call on the key space. -/
theorem commitEntry_eq_storeCallOf (pdb : Entries) (e : Str × Str) :
    commitEntry pdb e =
      match storeCallOf e with
      | none => pdb
      | some (StoreCall.put key value) => leveldbPut key value pdb
      | some (StoreCall.delete key) => leveldbDelete key pdb := by
  obtain ⟨k, op⟩ := e
  simp only [commitEntry, storeCallOf]
  generalize split (fun c => c == '_') k = l
  rcases l with _ | ⟨x, _ | ⟨y, _ | ⟨z, t⟩⟩⟩
  · rfl
  · rfl
  · by_cases h1 : op = ADD_OP
    · simp [h1, Write]
    · by_cases h2 : op = REMOVE_OP
      · subst h2; simp [REMOVE_OP_ne_ADD_OP, Delete]
      · simp [h1, h2]
  · rfl

theorem storeCallOf_of_not_wellFormed (e : Str × Str) (h : wellFormedKey e.1 = false) :
    storeCallOf e = none := by
  obtain ⟨k, op⟩ := e
  simp only [wellFormedKey, decide_eq_false_iff_not] at h
  simp only [storeCallOf]
  generalize split (fun c => c == '_') k = l at h
  rcases l with _ | ⟨x, _ | ⟨y, _ | ⟨z, t⟩⟩⟩
  · rfl
  · rfl
  · simp at h
  · rfl

/-- A malformed entry leaves the key space as it is. -/
theorem commitEntry_of_not_wellFormed (pdb : Entries) (e : Str × Str)
    (h : wellFormedKey e.1 = false) : commitEntry pdb e = pdb := by
  rw [commitEntry_eq_storeCallOf, storeCallOf_of_not_wellFormed e h]

theorem commitLoop_filter_wellFormed (cache pdb : Entries) :
    commitLoop (cache.filter (fun e => wellFormedKey e.1)) pdb = commitLoop cache pdb := by
  induction cache generalizing pdb with
  | nil => rfl
  | cons e rest ih =>
    by_cases h : wellFormedKey e.1 = true
    · simp only [List.filter_cons, h, if_true, commitLoop, ih]
    · have h1 : wellFormedKey e.1 = false := by simpa using h
      simp only [List.filter_cons, h1, Bool.false_eq_true, if_false, commitLoop,
        commitEntry_of_not_wellFormed pdb e h1, ih]

theorem Commit_eq (db : DB) :
    Commit db = (true, ⟨[], commitLoop db.cache db.pdb⟩) := by
  obtain ⟨cache, pdb⟩ := db
  cases cache with
  | nil => rfl
  | cons e rest => simp [Commit]

theorem faulty_commitEntry_issued (outcome : Nat → Status) (pdb : FaultyStore)
    (e : Str × Str) :
    (Faulty.commitEntry outcome pdb e).map (fun s => s.issued)
      = some (pdb.issued ++ (storeCallOf e).toList) := by
  obtain ⟨k, op⟩ := e
  simp only [Faulty.commitEntry, storeCallOf]
  generalize split (fun c => c == '_') k = l
  rcases l with _ | ⟨x, _ | ⟨y, _ | ⟨z, t⟩⟩⟩
  · simp
  · simp
  · by_cases h1 : op = ADD_OP
    · by_cases hs : outcome pdb.issued.length = Status.ok
      · simp [h1, Faulty.Write, Faulty.leveldbPut, hs]
      · simp [h1, Faulty.Write, Faulty.leveldbPut, hs, HandleError]
    · by_cases h2 : op = REMOVE_OP
      · by_cases hs : outcome pdb.issued.length = Status.ok
        · subst h2; simp [REMOVE_OP_ne_ADD_OP, Faulty.Delete, Faulty.leveldbDelete, hs]
        · by_cases hn : outcome pdb.issued.length = Status.notFound
          · subst h2; simp [REMOVE_OP_ne_ADD_OP, Faulty.Delete, Faulty.leveldbDelete, hs, hn]
          · subst h2; simp [REMOVE_OP_ne_ADD_OP, Faulty.Delete, Faulty.leveldbDelete, hs, hn, HandleError]
      · simp [h1, h2]
  · simp

/-- Whatever the outcomes of the calls, the loop of `Commit` runs to its end and
has issued the call of every entry, in cache order. -/
theorem faulty_commitLoop_issued (outcome : Nat → Status) (cache : Entries)
    (pdb : FaultyStore) :
    (Faulty.commitLoop outcome cache pdb).map (fun s => s.issued)
      = some (pdb.issued ++ cache.filterMap storeCallOf) := by
  induction cache generalizing pdb with
  | nil => simp [Faulty.commitLoop]
  | cons e rest ih =>
    have he := faulty_commitEntry_issued outcome pdb e
    cases hc : Faulty.commitEntry outcome pdb e with
    | none => simp [hc] at he
    | some pdb1 =>
      simp only [hc, Option.map_some', Option.some.injEq] at he
      simp only [Faulty.commitLoop, hc]
      rw [ih pdb1, he]
      cases hs : storeCallOf e <;> simp [List.filterMap_cons, hs]

/-- With every call ok, the loop over the fallible handle produces the key
space of the loop over the reliable one. -/
theorem faulty_commitLoop_all_ok (cache : Entries) (pdb : FaultyStore) :
    (Faulty.commitLoop (fun _ => Status.ok) cache pdb).map (fun s => s.entries)
      = some (commitLoop cache pdb.entries) := by
  induction cache generalizing pdb with
  | nil => simp [Faulty.commitLoop, commitLoop]
  | cons e rest ih =>
    have hentry : ∃ pdb1, Faulty.commitEntry (fun _ => Status.ok) pdb e = some pdb1 ∧
        pdb1.entries = commitEntry pdb.entries e := by
      obtain ⟨k, op⟩ := e
      simp only [Faulty.commitEntry, commitEntry]
      generalize split (fun c => c == '_') k = l
      rcases l with _ | ⟨x, _ | ⟨y, _ | ⟨z, t⟩⟩⟩
      · exact ⟨pdb, rfl, rfl⟩
      · exact ⟨pdb, rfl, rfl⟩
      · by_cases h1 : op = ADD_OP
        · simp [h1, Faulty.Write, Faulty.leveldbPut, Write]
        · by_cases h2 : op = REMOVE_OP
          · subst h2; simp [REMOVE_OP_ne_ADD_OP, Faulty.Delete, Faulty.leveldbDelete, Delete]
          · simp [h1, h2]
      · exact ⟨pdb, rfl, rfl⟩
    obtain ⟨pdb1, h1, h2⟩ := hentry
    simp only [Faulty.commitLoop, h1, commitLoop]
    rw [ih pdb1, h2]

theorem commitLoop_append (pre post pdb : Entries) :
    commitLoop (pre ++ post) pdb = commitLoop post (commitLoop pre pdb) := by
  induction pre generalizing pdb with
  | nil => rfl
  | cons e rest ih => rw [List.cons_append, commitLoop, commitLoop, ih]

/-- What `Commit` over a fallible handle returns, leaves in the cache and has
issued. -/
theorem faulty_Commit_eq (outcome : Nat → Status) (db : FaultyDB) :
    (Faulty.Commit outcome db).map (fun r => (r.1, r.2.cache, r.2.pdb.issued))
      = some (true, [], db.pdb.issued ++ db.cache.filterMap storeCallOf) := by
  obtain ⟨cache, pdb⟩ := db
  cases cache with
  | nil => simp [Faulty.Commit]
  | cons e rest =>
    have hloop := faulty_commitLoop_issued outcome (e :: rest) pdb
    cases hc : Faulty.commitLoop outcome (e :: rest) pdb with
    | none => simp [hc] at hloop
    | some pdb1 =>
      simp only [hc, Option.map_some', Option.some.injEq] at hloop
      simp [Faulty.Commit, hc, hloop]

theorem leveldbDelete_of_absent (k : Str) (m : Entries) (h : ∀ e ∈ m, e.1 ≠ k) :
    leveldbDelete k m = m := by
  simp only [leveldbDelete, List.filter_eq_self, bne_iff_ne, ne_eq]
  exact h

/-- C11: whatever the pending cache holds (keys that do not split on `'_'` into
two parts and op tags other than `"A"` and `"R"` included), `Commit()` returns
true and leaves the pending cache empty. -/
theorem C11_commit_returns_true_and_clears_cache (db : DB) :
    (Commit db).1 = true ∧ (Commit db).2.cache = [] := by
  rw [Commit_eq]
  exact ⟨rfl, rfl⟩

/-- C12: malformed entries are skipped. For every state, `Commit()` gives what
it gives on the cache restricted to its well-formed entries (keys that split on
`'_'` into exactly two parts); a malformed entry issues no call and leaves the
key space as it is, and the entries after it are applied as if it were not
there. -/
theorem C12_malformed_entries_are_skipped (db : DB) :
    Commit db = Commit { db with cache := db.cache.filter (fun e => wellFormedKey e.1) } ∧
      (∀ (pdb : Entries) (e : Str × Str), wellFormedKey e.1 = false →
        commitEntry pdb e = pdb ∧ storeCallOf e = none) ∧
      (∀ (pre post pdb : Entries) (e : Str × Str), wellFormedKey e.1 = false →
        commitLoop (pre ++ e :: post) pdb = commitLoop post (commitLoop pre pdb)) := by
  refine ⟨?_, ?_, ?_⟩
  · rw [Commit_eq, Commit_eq, commitLoop_filter_wellFormed]
  · exact fun pdb e h =>
      ⟨commitEntry_of_not_wellFormed pdb e h, storeCallOf_of_not_wellFormed e h⟩
  · intro pre post pdb e h
    rw [commitLoop_append, commitLoop, commitEntry_of_not_wellFormed _ e h]

/-- C12 on the cache `"a_b_5" -> A`, `"cd_7" -> A`: the first key is malformed,
and the commit stores `"cd"` at 7 as the commit of the second entry alone
does. -/
theorem C12_malformed_entries_are_skipped_witness :
    wellFormedKey ['a', '_', 'b', '_', '5'] = false ∧
      Commit ⟨[(['a', '_', 'b', '_', '5'], ['A']), (['c', 'd', '_', '7'], ['A'])], []⟩
        = Commit ⟨[(['c', 'd', '_', '7'], ['A'])], []⟩ :=
  ⟨by decide,
    (C12_malformed_entries_are_skipped
      ⟨[(['a', '_', 'b', '_', '5'], ['A']), (['c', 'd', '_', '7'], ['A'])], []⟩).1⟩

/-- C13: best-effort commit. Over a handle whose Put and Delete calls may fail,
for every pending cache and every pattern of outcomes, `Commit()` returns true,
leaves the cache empty and has issued, in cache order, the call of every
entry: for a key that splits into `address` and `height`, the Put of
`'L' + address` with `height` when the op is Add and the Delete of
`'L' + address` when it is Remove. -/
theorem C13_commit_is_best_effort (outcome : Nat → Status) (db : FaultyDB) :
    (Faulty.Commit outcome db).map (fun r => (r.1, r.2.cache, r.2.pdb.issued))
        = some (true, [], db.pdb.issued ++ db.cache.filterMap storeCallOf) ∧
      ∀ key address height : Str, split (fun c => c == '_') key = [address, height] →
        storeCallOf (key, ADD_OP) = some (StoreCall.put (DB_LEADER ++ address) height) ∧
        storeCallOf (key, REMOVE_OP) = some (StoreCall.delete (DB_LEADER ++ address)) := by
  refine ⟨faulty_Commit_eq outcome db, ?_⟩
  intro key address height hsplit
  simp [storeCallOf, hsplit, REMOVE_OP_ne_ADD_OP]

/-- C13 with every call failing, on the cache `"ab_5" -> A`, `"cd_7" -> R`: both
calls are issued, the cache is cleared and true is returned. -/
theorem C13_commit_is_best_effort_witness :
    (Faulty.Commit (fun _ => Status.ioError)
        ⟨[(['a', 'b', '_', '5'], ['A']), (['c', 'd', '_', '7'], ['R'])], ⟨[], []⟩⟩).map
        (fun r => (r.1, r.2.cache, r.2.pdb.issued))
      = some (true, [], [StoreCall.put ['L', 'a', 'b'] ['5'],
          StoreCall.delete ['L', 'c', 'd']]) :=
  (C13_commit_is_best_effort (fun _ => Status.ioError)
    ⟨[(['a', 'b', '_', '5'], ['A']), (['c', 'd', '_', '7'], ['R'])], ⟨[], []⟩⟩).1.trans
    (by decide)

/-- C14: for every address `a` without `'_'` and height `h >= 0`, on an empty
cache and a store with no record under `'L' + a`, `RemoveClubLeader(a, h)` then
`Commit()` returns true and leaves the store exactly as it was. -/
theorem C14_remove_of_absent_address_is_noop (pdb : Entries) (a : Str) (h : Int)
    (ha : ∀ c ∈ a, c ≠ '_') (h0 : 0 ≤ h) (hno : ∀ e ∈ pdb, e.1 ≠ DB_LEADER ++ a) :
    Commit (RemoveClubLeader ⟨[], pdb⟩ a h).2 = (true, ⟨[], pdb⟩) := by
  rw [remove_commit pdb a h ha h0, leveldbDelete_of_absent _ pdb hno]

/-- C14 for the address `"ab"` at height 5 on a store that holds only `"cd"`. -/
theorem C14_remove_of_absent_address_is_noop_witness :
    Commit (RemoveClubLeader ⟨[], [(['L', 'c', 'd'], ['1'])]⟩ ['a', 'b'] 5).2
      = (true, ⟨[], [(['L', 'c', 'd'], ['1'])]⟩) :=
  C14_remove_of_absent_address_is_noop [(['L', 'c', 'd'], ['1'])] ['a', 'b'] 5
    (by decide) (by decide) (by decide)

/-- C15: for every store, `Commit()` on an empty pending cache returns true and
leaves the state as it is; over a handle that records its calls, no call is
issued. -/
theorem C15_commit_of_empty_cache (pdb : Entries) (outcome : Nat → Status)
    (s : FaultyStore) :
    Commit ⟨[], pdb⟩ = (true, ⟨[], pdb⟩) ∧
      Faulty.Commit outcome ⟨[], s⟩ = some (true, ⟨[], s⟩) :=
  ⟨rfl, rfl⟩

/-! ## Order of the reported addresses -/

theorem strLt_cons_same (c : Char) (x y : Str) : strLt (c :: x) (c :: y) = strLt x y := by
  simp [strLt]

theorem selectLeader_strLt (height : Int) (e1 e2 : Str × Str) (x y : Str)
    (hlt : strLt e1.1 e2.1 = true) (h1 : selectLeader height e1 = some x)
    (h2 : selectLeader height e2 = some y) : strLt x y = true := by
  have k1 := (selectLeader_some height e1 x h1).1
  have k2 := (selectLeader_some height e2 y h2).1
  rw [k1, k2] at hlt
  simpa [DB_LEADER, strLt_cons_same] using hlt

theorem filterMap_selectLeader_ascending (height : Int) (m : Entries)
    (hm : KeysAscending m) :
    (m.filterMap (selectLeader height)).Pairwise (fun x y => strLt x y = true) := by
  refine List.Pairwise.filterMap (selectLeader height) ?_ hm
  intro e1 e2 hlt x hx y hy
  exact selectLeader_strLt height e1 e2 x y hlt hx hy

theorem nodup_of_strLt (l : List Str) (h : l.Pairwise (fun x y => strLt x y = true)) :
    l.Nodup := by
  refine List.Pairwise.imp ?_ h
  intro x y hxy heq
  rw [heq, strLt_irrefl] at hxy
  cases hxy

/-- C16: output ordering. For every store whose leader values all decode and
whose keys the iterator yields in ascending bytewise order, and every
`H >= 0`, `GetAllClubLeaders(H)` succeeds with a list that is strictly
increasing in the bytewise order of addresses, hence without duplicates,
whatever the stored heights are. -/
theorem C16_result_is_strictly_ascending (db : DB) (leaders : List Str) (H : Int)
    (h0 : 0 ≤ H) (hvalid : ∀ e ∈ db.pdb, LeaderKey e.1 → lexical_cast_int e.2 ≠ none)
    (hsorted : KeysAscending db.pdb) :
    (GetAllClubLeaders db leaders H).1.1 = true ∧
      (GetAllClubLeaders db leaders H).1.2.Pairwise (fun x y => strLt x y = true) ∧
      (GetAllClubLeaders db leaders H).1.2.Nodup := by
  have hget : GetAllClubLeaders db leaders H
      = ((true, db.pdb.filterMap (selectLeader H)), db) := by
    rw [GetAllClubLeaders, if_neg (not_lt.2 h0), scanLeaders_ok H db.pdb [] hvalid,
      List.nil_append]
  rw [hget]
  exact ⟨rfl, filterMap_selectLeader_ascending H db.pdb hsorted,
    nodup_of_strLt _ (filterMap_selectLeader_ascending H db.pdb hsorted)⟩

/-- C16 on the store `"Lab" -> "9"`, `"Lcd" -> "3"`, `"Lef" -> "5"` with
`H = 5`: the heights are not in order, the result `"cd"`, `"ef"` is. -/
theorem C16_result_is_strictly_ascending_witness :
    (GetAllClubLeaders ⟨[], [(['L', 'a', 'b'], ['9']), (['L', 'c', 'd'], ['3']),
        (['L', 'e', 'f'], ['5'])]⟩ [] 5).1.2.Pairwise (fun x y => strLt x y = true) :=
  (C16_result_is_strictly_ascending ⟨[], [(['L', 'a', 'b'], ['9']), (['L', 'c', 'd'], ['3']),
      (['L', 'e', 'f'], ['5'])]⟩ [] 5 (by decide) (by decide)
    (by unfold KeysAscending; decide)).2.1

/-! ## The pending key identifies its pair -/

theorem append_delim_cancel (u : Char) (p1 p2 r1 r2 : Str) (h1 : u ∉ p1) (h2 : u ∉ p2)
    (h : p1 ++ u :: r1 = p2 ++ u :: r2) : p1 = p2 ∧ r1 = r2 := by
  induction p1 generalizing p2 with
  | nil =>
    cases p2 with
    | nil => exact ⟨rfl, by simpa using h⟩
    | cons c cs =>
      simp only [List.nil_append, List.cons_append, List.cons.injEq] at h
      exact absurd (h.1 ▸ List.mem_cons_self _ _) h2
  | cons c cs ih =>
    cases p2 with
    | nil =>
      simp only [List.nil_append, List.cons_append, List.cons.injEq] at h
      exact absurd (h.1 ▸ List.mem_cons_self _ _) h1
    | cons c2 cs2 =>
      simp only [List.cons_append, List.cons.injEq] at h
      obtain ⟨hc, ht⟩ := h
      obtain ⟨hp, hr⟩ := ih cs2 (fun hm => h1 (List.mem_cons_of_mem _ hm))
        (fun hm => h2 (List.mem_cons_of_mem _ hm)) ht
      exact ⟨by rw [hc, hp], hr⟩

/-- The last delimiter of a key decides its two parts. -/
theorem append_delim_cancel_right (u : Char) (x y d1 d2 : Str) (h1 : u ∉ d1) (h2 : u ∉ d2)
    (h : x ++ u :: d1 = y ++ u :: d2) : x = y ∧ d1 = d2 := by
  have hrev : d1.reverse ++ u :: x.reverse = d2.reverse ++ u :: y.reverse := by
    have := congrArg List.reverse h
    simpa using this
  obtain ⟨hd, hx⟩ := append_delim_cancel u _ _ _ _ (by simpa using h1) (by simpa using h2) hrev
  exact ⟨List.reverse_injective hx, List.reverse_injective hd⟩

theorem decimal_injective (n m : Nat) (h : decimal n = decimal m) : n = m := by
  have := congrArg (List.foldl (fun acc c => acc * 10 + (c.toNat - 48)) 0) h
  rwa [decimal_value, decimal_value] at this

theorem lexical_cast_string_injective (h1 h2 : Int) (h10 : 0 ≤ h1) (h20 : 0 ≤ h2)
    (h : lexical_cast_string h1 = lexical_cast_string h2) : h1 = h2 := by
  rw [lexical_cast_string_nonneg h1 h10, lexical_cast_string_nonneg h2 h20] at h
  have := decimal_injective _ _ h
  omega

/-- C17: the pending key identifies its pair. For all addresses `a1`, `a2`
(with or without `'_'`: the recording operations accept both) and heights
`h1, h2 >= 0`, if `a1 + "_" + decimal(h1) = a2 + "_" + decimal(h2)` then
`a1 = a2` and `h1 = h2`. -/
theorem C17_pending_key_is_injective (a1 a2 : Str) (h1 h2 : Int) (h10 : 0 ≤ h1)
    (h20 : 0 ≤ h2)
    (hkey : a1 ++ ['_'] ++ lexical_cast_string h1 = a2 ++ ['_'] ++ lexical_cast_string h2) :
    a1 = a2 ∧ h1 = h2 := by
  simp only [List.append_assoc, List.singleton_append] at hkey
  obtain ⟨ha, hd⟩ := append_delim_cancel_right '_' a1 a2 _ _
    (fun hm => lexical_cast_string_no_delim h1 h10 _ hm rfl)
    (fun hm => lexical_cast_string_no_delim h2 h20 _ hm rfl) hkey
  exact ⟨ha, lexical_cast_string_injective h1 h2 h10 h20 hd⟩

/-- C17 at equal pairs: the address `"a_b"` and height 5. -/
theorem C17_pending_key_is_injective_witness :
    (['a', '_', 'b'] ++ ['_'] ++ lexical_cast_string 5
        = ['a', '_', 'b'] ++ ['_'] ++ lexical_cast_string 5) ∧
      (['a', '_', 'b'] : Str) = ['a', '_', 'b'] ∧ (5 : Int) = 5 :=
  ⟨rfl,
    C17_pending_key_is_injective ['a', '_', 'b'] ['a', '_', 'b'] 5 5 (by decide) (by decide)
      rfl⟩

/-! ## Recording calls commute -/

theorem filterMap_selectLeader_eq_reference (height : Int) (pdb : Entries) :
    pdb.filterMap (selectLeader height) = referenceLeaders height pdb := by
  induction pdb with
  | nil => rfl
  | cons e rest ih =>
    obtain ⟨k, v⟩ := e
    unfold referenceLeaders at ih ⊢
    rw [List.filterMap_cons, ih, List.filter_cons]
    by_cases hk : LeaderKey k
    · cases hv : lexical_cast_int v with
      | none =>
        have hsel : selectLeader height (k, v) = none := by
          unfold selectLeader
          rw [if_pos hk]
          simp [hv]
        simp [hsel, hv]
      | some x =>
        by_cases hx : x ≤ height
        · rw [selectLeader_of_le height k v x hk hv hx]
          simp [hk.1, hk.2, hv, hx]
        · rw [selectLeader_of_gt height k v x hk hv hx]
          simp [hv, hx]
    · rw [selectLeader_of_not_key height k v hk]
      have hk1 : ¬ (k.length > 2 ∧ k.head? = some 'L') := hk
      by_cases hlen : k.length > 2
      · have hhead : ¬ k.head? = some 'L' := fun h => hk1 ⟨hlen, h⟩
        simp [hhead]
      · simp [hlen]

/-- C19: reference definition of the query. For every `H >= 0` and every store
in which every key longer than two bytes that starts with `'L'` has a value
that parses as an `int`, `GetAllClubLeaders(H)` returns true, leaves the state
as it is, and its list is exactly the reference list: in key-space order, the
keys longer than two bytes that start with `'L'` and whose parsed value is at
most `H`, each without its first byte. Every reported address has at least two
bytes and comes from a stored key `'L' + address`, so a record of an address of
length 0 or 1 is never reported. -/
theorem C19_query_matches_reference (db : DB) (leaders : List Str) (H : Int)
    (h0 : 0 ≤ H) (hvalid : ∀ e ∈ db.pdb, LeaderKey e.1 → lexical_cast_int e.2 ≠ none) :
    GetAllClubLeaders db leaders H = ((true, referenceLeaders H db.pdb), db) ∧
      ∀ x ∈ referenceLeaders H db.pdb,
        2 ≤ x.length ∧ ∃ e ∈ db.pdb, e.1 = DB_LEADER ++ x := by
  constructor
  · rw [GetAllClubLeaders, if_neg (not_lt.2 h0), scanLeaders_ok H db.pdb [] hvalid,
      List.nil_append, filterMap_selectLeader_eq_reference]
  · intro x hx
    rw [← filterMap_selectLeader_eq_reference] at hx
    obtain ⟨e, he, hsel⟩ := List.mem_filterMap.1 hx
    have hs := selectLeader_some H e x hsel
    exact ⟨hs.2.1, e, he, hs.1⟩

/-- C19 on the store `"K" -> "1"`, `"Lab" -> "3"`, `"Lx" -> "1"`, `"Lzz" -> "9"`
with `H = 5`: only `"ab"` is reported. -/
theorem C19_query_matches_reference_witness :
    GetAllClubLeaders ⟨[], [(['K'], ['1']), (['L', 'a', 'b'], ['3']), (['L', 'x'], ['1']),
        (['L', 'z', 'z'], ['9'])]⟩ [] 5
      = ((true, referenceLeaders 5 [(['K'], ['1']), (['L', 'a', 'b'], ['3']),
          (['L', 'x'], ['1']), (['L', 'z', 'z'], ['9'])]),
        ⟨[], [(['K'], ['1']), (['L', 'a', 'b'], ['3']), (['L', 'x'], ['1']),
          (['L', 'z', 'z'], ['9'])]⟩) :=
  (C19_query_matches_reference ⟨[], [(['K'], ['1']), (['L', 'a', 'b'], ['3']),
      (['L', 'x'], ['1']), (['L', 'z', 'z'], ['9'])]⟩ [] 5 (by decide) (by decide)).1

/-! ## A delimiter inside the address -/

theorem delimited_key_not_wellFormed (a s : Str) (ha : '_' ∈ a) :
    wellFormedKey (a ++ ['_'] ++ s) = false := by
  have h := split_delimited_address a s ha
  simp only [wellFormedKey, decide_eq_false_iff_not]
  omega

theorem filter_wellFormed_mapInsert (k v : Str) (m : Entries)
    (hk : wellFormedKey k = false) :
    (mapInsert k v m).filter (fun e => wellFormedKey e.1)
      = m.filter (fun e => wellFormedKey e.1) := by
  induction m with
  | nil => simp [mapInsert, hk]
  | cons x rest ih =>
    unfold mapInsert
    split
    · simp [List.filter_cons, hk]
    · simp only [List.filter_cons, ih]

theorem filter_wellFormed_mapAssign (k v : Str) (m : Entries)
    (hk : wellFormedKey k = false) :
    (mapAssign k v m).filter (fun e => wellFormedKey e.1)
      = m.filter (fun e => wellFormedKey e.1) := by
  induction m with
  | nil => rfl
  | cons x rest ih =>
    simp only [mapAssign, List.map_cons] at ih ⊢
    by_cases hx : x.1 = k
    · have hx1 : wellFormedKey x.1 = false := by rw [hx]; exact hk
      simp [List.filter_cons, hx, hk, ih]
    · simp only [if_neg hx, List.filter_cons, ih]

/-- Recording under a malformed key does not change what the loop of `Commit`
does. -/
theorem commitLoop_recordOp_malformed (db : DB) (a : Str) (h : Int) (op : Str)
    (pdb : Entries) (hk : wellFormedKey (a ++ ['_'] ++ lexical_cast_string h) = false) :
    commitLoop (recordOp db a h op).2.cache pdb = commitLoop db.cache pdb := by
  rw [← commitLoop_filter_wellFormed (recordOp db a h op).2.cache,
    ← commitLoop_filter_wellFormed db.cache]
  congr 1
  unfold recordOp
  split
  · rfl
  · dsimp only
    split
    · exact filter_wellFormed_mapAssign _ _ _ hk
    · exact filter_wellFormed_mapInsert _ _ _ hk

/-- C20: an address with `'_'` is accepted when recorded and dropped when
committed. For every state, every address `a` that contains `'_'` and every
`h >= 0`, `AddClubLeader(a, h)` returns true and leaves the key
`a + "_" + decimal(h)` in the cache with op Add; the loop body of `Commit()`
issues no call for that entry and leaves the key space as it is; the following
`Commit()` returns true, empties the cache and gives the state that `Commit()`
gives without the recording. -/
theorem C20_delimited_address_is_dropped_at_commit (db : DB) (a : Str) (h : Int)
    (ha : '_' ∈ a) (h0 : 0 ≤ h) :
    (AddClubLeader db a h).1 = true ∧
      (a ++ ['_'] ++ lexical_cast_string h, ADD_OP) ∈ (AddClubLeader db a h).2.cache ∧
      storeCallOf (a ++ ['_'] ++ lexical_cast_string h, ADD_OP) = none ∧
      (∀ pdb : Entries,
        commitEntry pdb (a ++ ['_'] ++ lexical_cast_string h, ADD_OP) = pdb) ∧
      (Commit (AddClubLeader db a h).2).1 = true ∧
      (Commit (AddClubLeader db a h).2).2.cache = [] ∧
      Commit (AddClubLeader db a h).2 = Commit db := by
  have hk := delimited_key_not_wellFormed a (lexical_cast_string h) ha
  have hcommit : Commit (AddClubLeader db a h).2 = Commit db := by
    rw [Commit_eq, Commit_eq, AddClubLeader, recordOp_pdb,
      commitLoop_recordOp_malformed db a h ADD_OP db.pdb hk]
  refine ⟨(recordOp_mem db a h ADD_OP h0).1, (recordOp_mem db a h ADD_OP h0).2,
    storeCallOf_of_not_wellFormed _ hk, fun pdb => commitEntry_of_not_wellFormed pdb _ hk,
    ?_, ?_, hcommit⟩
  · rw [Commit_eq]
  · rw [Commit_eq]

/-- C20 for the address `"a_b"` at height 5 on a store that holds `"cd"`: the
commit leaves the store as it was and the cache empty. -/
theorem C20_delimited_address_is_dropped_at_commit_witness :
    Commit (AddClubLeader ⟨[], [(['L', 'c', 'd'], ['1'])]⟩ ['a', '_', 'b'] 5).2
      = Commit ⟨[], [(['L', 'c', 'd'], ['1'])]⟩ :=
  (C20_delimited_address_is_dropped_at_commit ⟨[], [(['L', 'c', 'd'], ['1'])]⟩
    ['a', '_', 'b'] 5 (by decide) (by decide)).2.2.2.2.2.2

end CClubLeaderDB
